import Mathlib

/-
Verification of the Unity I2 localization transform pipeline.

Strings are modelled as lists of Unicode scalar values (`Str := List Char`),
matching the code-point level at which the JavaScript/TypeScript sources
operate (`Array.from`, `split`, chained `String.replace` with single-character
or two-character patterns).

The embedded functions follow the source files:
  * `escapeSpecialCharacters`   - src/src/utils/translationHelpers.ts (330-337)
    and the identical copies in the worker and extraction utilities;
  * `unescapeData`              - the reverse replacement chain inside
    `extractTermsChunked`, src/unnamed/part_003 (180-185);
  * `extractTermsChunked`       - src/unnamed/part_003 (145-213);
  * `handleExtract`             - src/public/workers/extractWorker.js (51-103);
  * `applyTranslations`         - src/unnamed/part_003 (286-323);
  * `applyRTLFormatting`        - src/src/utils/translationHelpers.ts (142-245);
  * the pending-request table   - src/src/hooks/useWorkerHandler.ts (171-203).
-/

namespace UnityI2

/-- Strings as lists of Unicode code points. -/
abbrev Str := List Char

/-- JavaScript whitespace (`\s`, restricted to the characters that can occur
in this pipeline's data: ASCII whitespace plus NBSP and the BOM/ZWNBSP). -/
def isWs (c : Char) : Bool :=
  c = ' ' || c = '\t' || c = '\n' || c = '\r' || c = '\x0b' || c = '\x0c' ||
  c = ' ' || c = '﻿'

/-- Decimal digit as matched by the regex class `\d`. -/
def isDigitC (c : Char) : Bool := '0' ≤ c && c ≤ '9'

/-- `String.prototype.trim`: strip whitespace from both ends. -/
def trimStr (s : Str) : Str :=
  ((s.dropWhile isWs).reverse.dropWhile isWs).reverse

/-- Numeric value of a digit string (`parseInt(d, 10)` on an all-digit capture). -/
def digitsToNat (d : Str) : Nat :=
  d.foldl (fun n c => n * 10 + (c.toNat - 48)) 0

/-- `content.split('\n')`: split into lines at every line feed.
`splitNl [] = [[]]`, matching `''.split('\n') == ['']` in JavaScript. -/
def splitNl : Str → List Str
  | [] => [[]]
  | c :: rest =>
    let r := splitNl rest
    if c = '\n' then [] :: r
    else (c :: r.headI) :: r.tail

/-- `lines.join('\n')`. -/
def joinNl : List Str → Str
  | [] => []
  | [l] => l
  | l :: rest => l ++ '\n' :: joinNl rest

/-- One global single-character replacement,
`s.replace(/t/g, r)` for a single-character pattern `t`. -/
def replaceChar (t : Char) (r : Str) : Str → Str
  | [] => []
  | c :: rest => (if c = t then r else [c]) ++ replaceChar t r rest

/-- One global two-character replacement, `s.replace(/ab/g, r)`:
left-to-right scan, non-overlapping matches. -/
def replacePair (a b : Char) (r : Str) : Str → Str
  | [] => []
  | [c] => [c]
  | c :: c2 :: rest =>
    if c = a && c2 = b then r ++ replacePair a b r rest
    else c :: replacePair a b r (c2 :: rest)

/-- `escapeSpecialCharacters` (translationHelpers.ts 330-337): the chain
`replace(\\ → \\\\)`, `replace(" → \")`, `replace(\n → \\n)`,
`replace(\r → \\r)`, `replace(\t → \\t)`, applied in source order. -/
def escapeSpecialCharacters (s : Str) : Str :=
  replaceChar '\t' ['\\', 't']
    (replaceChar '\r' ['\\', 'r']
      (replaceChar '\n' ['\\', 'n']
        (replaceChar '"' ['\\', '"']
          (replaceChar '\\' ['\\', '\\'] s))))

/-- The extractor's unescape chain (part_003, 180-185): `\n`, `\t`, `\r`,
`\"`, `\\` are replaced in that order by newline, tab, carriage return,
quote, backslash. -/
def unescapeData (s : Str) : Str :=
  replacePair '\\' '\\' ['\\']
    (replacePair '\\' '"' ['"']
      (replacePair '\\' 'r' ['\r']
        (replacePair '\\' 't' ['\t']
          (replacePair '\\' 'n' ['\n'] s))))

/-- `ExtractedItem` (part_003, 121-126).  The optional fields mirror the
TypeScript interface; `linePfx` models the `linePrefix` field. -/
structure ExtractedItem where
  term : Str
  originalText : Str
  dataLineIndex : Option Nat := none
  linePfx : Option Str := none
deriving DecidableEq, Repr

/-- Try to strip an exact literal from the front of a string. -/
def dropLit : Str → Str → Option Str
  | [], s => some s
  | _, [] => none
  | p :: ps, c :: cs => if c = p then dropLit ps cs else none

/-- `REGEX.TERM = /^#Term:\s*(.+)$/` applied to a line, returning capture 1.
After the literal `#Term:`, greedy `\s*` backtracks just enough to let `.+`
match at least one character, so on an all-whitespace remainder the capture
is the final whitespace character. -/
def termCap (s : Str) : Option Str :=
  match dropLit ("#Term:".toList) s with
  | none => none
  | some rest =>
    let r := rest.dropWhile isWs
    if r ≠ [] then some r
    else
      match rest.getLast? with
      | none => none
      | some c => some [c]

/-- `REGEX.BRACKETED_NUM = /^\[(\d+)\]$/` applied to a line, returning the
digit capture. -/
def bracketNum (s : Str) : Option Str :=
  match s with
  | '[' :: rest =>
    let d := rest.takeWhile isDigitC
    if d ≠ [] && rest.dropWhile isDigitC = [']'] then some d else none
  | _ => none

/-- Parse the body of a quoted literal, grammar `((?:[^"\\]|\\.)*)"` :
returns the captured body and the text after the closing quote.  The
grammar is prefix-deterministic, so this single pass is equivalent to the
regex engine's backtracking search. -/
def litParse : Str → Option (Str × Str)
  | [] => none
  | c :: rest =>
    if c = '"' then some ([], rest)
    else if c = '\\' then
      match rest with
      | [] => none
      | c2 :: rest2 =>
        match litParse rest2 with
        | none => none
        | some p => some (c :: c2 :: p.1, p.2)
    else
      match litParse rest with
      | none => none
      | some p => some (c :: p.1, p.2)

/-- `REGEX.DATA = /^\s*(\d+)\s+string\s+data\s*=\s*"((?:[^"\\]|\\.)*)"\s*$/`
applied to a line, returning captures 1 (slot digits) and 2 (raw literal). -/
def dataMatch (s : Str) : Option (Str × Str) :=
  let s1 := s.dropWhile isWs
  let d := s1.takeWhile isDigitC
  let s2 := s1.dropWhile isDigitC
  if d = [] then none
  else if s2.takeWhile isWs = [] then none
  else
    match dropLit ("string".toList) (s2.dropWhile isWs) with
    | none => none
    | some s3 =>
      if s3.takeWhile isWs = [] then none
      else
        match dropLit ("data".toList) (s3.dropWhile isWs) with
        | none => none
        | some s4 =>
          match s4.dropWhile isWs with
          | '=' :: s5 =>
            match s5.dropWhile isWs with
            | '"' :: s6 =>
              match litParse s6 with
              | none => none
              | some p => if p.2.all isWs then some (d, p.1) else none
            | _ => none
          | _ => none

/-- `normalizeFileContent` (part_003, 138-140): strip a leading BOM,
then `\r\n` → `\n`, then `\r` → `\n`. -/
def normalizeFileContent (s : Str) : Str :=
  let s1 := match s with
    | '﻿' :: r => r
    | other => other
  replaceChar '\r' ['\n'] (replacePair '\r' '\n' ['\n'] s1)

/-- The scan loop of `extractTermsChunked` (part_003, 157-206).  State:
`i` is the current line index, `cur` the current term (`''` when none is
active, as in the source where `currentTerm` starts as `''` and `''` is
falsy).  A term line updates `cur` and continues; a bracketed-number line
looks at the following line: if that line is nonempty (the `if (nextLine)`
truthiness test) and matches `REGEX.DATA`, an item is recorded when the
slot digits equal the target and a term is active, and the data line is
skipped (`i++`). -/
def extractLoop (target : Nat) : List Str → Nat → Str → List ExtractedItem → List ExtractedItem
  | [], _, _, acc => acc
  | l :: rest, i, cur, acc =>
    let t := trimStr l
    match termCap t with
    | some name => extractLoop target rest (i + 1) name acc
    | none =>
      match bracketNum t with
      | some _ =>
        match rest with
        | [] => acc
        | next :: rest2 =>
          if next = [] then extractLoop target (next :: rest2) (i + 1) cur acc
          else
            match dataMatch (trimStr next) with
            | some dl =>
              let acc' :=
                if digitsToNat dl.1 = target && cur ≠ [] then
                  acc ++ [{ term := cur, originalText := unescapeData dl.2,
                            dataLineIndex := some (i + 1),
                            linePfx := some ([' ', ' '] ++ dl.1 ++
                              " string data = ".toList ++ ['"']) }]
                else acc
              extractLoop target rest2 (i + 2) cur acc'
            | none => extractLoop target (next :: rest2) (i + 1) cur acc
      | none => extractLoop target rest (i + 1) cur acc

/-- `extractTermsChunked` (part_003, 145-213), with the progress callback
dropped (it does not influence the returned items). -/
def extractTermsChunked (content : Str) (target : Nat) : List ExtractedItem :=
  extractLoop target (splitNl (normalizeFileContent content)) 0 [] []

/-! ### Worker extractor (extractWorker.js)

The worker uses unanchored regexes: `TERM = /string Term = "([^"]+)"/`,
`BRACKET = /\[(\d+)\]/`, `DATA = /(\s*)(\d+\s+)?string data = "([^"]*)"/`.
Each is modelled by a left-to-right scan over start positions, which is the
JavaScript engine's leftmost-match semantics. -/

/-- Attempt `string Term = "([^"]+)"` at the start of `s`. -/
def tryTermAt (s : Str) : Option Str :=
  match dropLit ("string Term = \"".toList) s with
  | none => none
  | some r =>
    let cap := r.takeWhile (fun c => c ≠ '"')
    if cap ≠ [] && r.dropWhile (fun c => c ≠ '"') ≠ [] then some cap else none

/-- `line.match(REGEX.TERM)`: first position where the term pattern matches. -/
def findTermW : Str → Option Str
  | [] => none
  | c :: rest =>
    match tryTermAt (c :: rest) with
    | some cap => some cap
    | none => findTermW rest

/-- `line.match(REGEX.BRACKET)`: first `[digits]` substring. -/
def findBracketW : Str → Option Str
  | [] => none
  | c :: rest =>
    if c = '[' then
      let d := rest.takeWhile isDigitC
      if d ≠ [] && (rest.dropWhile isDigitC).head? = some ']' then some d
      else findBracketW rest
    else findBracketW rest

/-- Attempt `(\s*)(\d+\s+)?string data = "([^"]*)"` at the start of `s`,
returning captures 1, 2, 3.  The optional digit group is tried first
(greedy), then dropped, matching the engine's alternative order. -/
def tryDataAt (s : Str) : Option (Str × Str × Str) :=
  let g1 := s.takeWhile isWs
  let r1 := s.dropWhile isWs
  let d := r1.takeWhile isDigitC
  let afterD := r1.dropWhile isDigitC
  let w := afterD.takeWhile isWs
  let r2 := afterD.dropWhile isWs
  let tryLit : Str → Str → Option (Str × Str × Str) := fun g2 r =>
    match dropLit ("string data = \"".toList) r with
    | none => none
    | some r3 =>
      if r3.dropWhile (fun c => c ≠ '"') ≠ [] then
        some (g1, g2, r3.takeWhile (fun c => c ≠ '"'))
      else none
  if d ≠ [] && w ≠ [] then
    match tryLit (d ++ w) r2 with
    | some g => some g
    | none => tryLit [] r1
  else tryLit [] r1

/-- `line.match(REGEX.DATA)`: leftmost match of the worker data pattern. -/
def findDataW : Str → Option (Str × Str × Str)
  | [] => none
  | c :: rest =>
    match tryDataAt (c :: rest) with
    | some g => some g
    | none => findDataW rest

/-- The scan loop of `handleExtract` (extractWorker.js, 59-95).  Per line:
the term check replaces the current item (pushing the previous one), the
bracket check updates `bracketIndex` when a term is active, and — when a
term is active, not yet found, and the bracket index equals the target —
the next line is matched against `DATA` and the current item's fields are
set in place.  The final item is pushed at end of scan. -/
def handleLoop (target : Nat) :
    List Str → Nat → Option ExtractedItem → Bool → Option Nat →
    List ExtractedItem → List ExtractedItem
  | [], _, cur, _, _, acc => acc ++ cur.toList
  | l :: rest, i, cur, found, b, acc =>
    let step1 : Option ExtractedItem × Bool × Option Nat × List ExtractedItem :=
      match findTermW l with
      | some name =>
        let fresh : ExtractedItem := { term := name, originalText := [] }
        (some fresh, false, none, acc ++ cur.toList)
      | none => (cur, found, b, acc)
    let cur1 := step1.1
    let b2 : Option Nat :=
      match findBracketW l with
      | some dgs => if cur1.isSome then some (digitsToNat dgs) else step1.2.2.1
      | none => step1.2.2.1
    let step2 : Option ExtractedItem × Bool :=
      match cur1 with
      | some it =>
        if !step1.2.1 && b2 = some target then
          match rest.head? with
          | some next =>
            if next ≠ [] then
              match findDataW next with
              | some g =>
                let it2 : ExtractedItem :=
                  { it with
                    originalText := g.2.2
                    dataLineIndex := some (i + 1)
                    linePfx := some (g.1 ++ g.2.1) }
                (some it2, true)
              | none => (cur1, step1.2.1)
            else (cur1, step1.2.1)
          | none => (cur1, step1.2.1)
        else (cur1, step1.2.1)
      | none => (cur1, step1.2.1)
    handleLoop target rest (i + 1) step2.1 step2.2 b2 step1.2.2.2

/-- `handleExtract` (extractWorker.js, 51-103): split on `\n` (the worker
receives already-normalized content and does not renormalize), scan with
`currentTerm = null`, `isFound = false`, `bracketIndex = -1` (modelled as
`none`). -/
def handleExtract (content : Str) (target : Nat) : List ExtractedItem :=
  handleLoop target (splitNl content) 0 none false none []

/-! ### Merge engine (part_003 `applyTranslations`) -/

/-- The translation mapping, a `Map<string, string>`:
association list with unique keys. -/
abbrev TransMap := List (Str × Str)

/-- `map.get(term)`. -/
def lookupMap (m : TransMap) (k : Str) : Option Str :=
  (m.find? (fun p => p.1 = k)).map (·.2)

/-- The item loop of `applyTranslations` (part_003, 294-320).  An item is
skipped when its translation is missing or falsy (`''`), its
`dataLineIndex` is undefined or falsy (`0`), its line prefix is undefined
or falsy (`''`), or its index is out of bounds.  Otherwise the target line
is replaced by `linePrefix + escaped translation + '"'`; the counter
increments only when the new line differs from the old one. -/
def applyLoop (m : TransMap) : List ExtractedItem → Str → Nat → Str × Nat
  | [], upd, cnt => (upd, cnt)
  | it :: rest, upd, cnt =>
    match lookupMap m it.term with
    | none => applyLoop m rest upd cnt
    | some t =>
      if t = [] then applyLoop m rest upd cnt
      else
        match it.dataLineIndex, it.linePfx with
        | some j, some p =>
          if j = 0 || p = [] then applyLoop m rest upd cnt
          else
            let lines := splitNl upd
            if lines.length ≤ j then applyLoop m rest upd cnt
            else
              let nl := p ++ escapeSpecialCharacters t ++ ['"']
              if lines.getD j [] = nl then applyLoop m rest upd cnt
              else applyLoop m rest (joinNl (lines.set j nl)) (cnt + 1)
        | _, _ => applyLoop m rest upd cnt

/-- `applyTranslations` (part_003, 286-323). -/
def applyTranslations (content : Str) (data : List ExtractedItem)
    (m : TransMap) : Str × Nat :=
  applyLoop m data content 0

/-! ### Script shaper (`applyRTLFormatting`, translationHelpers.ts 142-245)

Letters are written with `\u` escapes; they denote exactly the glyphs of the
source tables. -/

/-- The six sequential Arabic→Persian normalization replaces
(translationHelpers.ts 144-150).  Targets and replacements are disjoint
single characters, so the chain equals one character map. -/
def normPersianChar (c : Char) : Char :=
  if c = 'ك' then 'ک'
  else if c = 'ي' then 'ی'
  else if c = 'ة' then 'ه'
  else if c = 'أ' then 'ا'
  else if c = 'إ' then 'ا'
  else if c = 'ؤ' then 'و'
  else c

/-- Character normalization stage. -/
def normalizePersian (s : Str) : Str := s.map normPersianChar

/-- The four presentation forms of a letter,
`[isolated, final, initial, medial]`. -/
structure Forms where
  isolated : Char
  fin : Char
  ini : Char
  med : Char
deriving DecidableEq, Repr

/-- `presentationForms` (translationHelpers.ts 154-189), verbatim. -/
def presentationTable : List (Char × Forms) :=
  [ ('ا', ⟨'ﺍ', 'ﺎ', 'ﺍ', 'ﺍ'⟩),
    ('آ', ⟨'ﺁ', 'ﺂ', 'ﺁ', 'ﺁ'⟩),
    ('ب', ⟨'ﺏ', 'ﺐ', 'ﺑ', 'ﺒ'⟩),
    ('پ', ⟨'ﭖ', 'ﭗ', 'ﭘ', 'ﭙ'⟩),
    ('ت', ⟨'ﺕ', 'ﺖ', 'ﺗ', 'ﺘ'⟩),
    ('ث', ⟨'ﺙ', 'ﺚ', 'ﺛ', 'ﺜ'⟩),
    ('ج', ⟨'ﺝ', 'ﺞ', 'ﺟ', 'ﺠ'⟩),
    ('چ', ⟨'ﭺ', 'ﭻ', 'ﭼ', 'ﭽ'⟩),
    ('ح', ⟨'ﺡ', 'ﺢ', 'ﺣ', 'ﺤ'⟩),
    ('خ', ⟨'ﺥ', 'ﺦ', 'ﺧ', 'ﺨ'⟩),
    ('د', ⟨'ﺩ', 'ﺪ', 'ﺩ', 'ﺩ'⟩),
    ('ذ', ⟨'ﺫ', 'ﺬ', 'ﺫ', 'ﺫ'⟩),
    ('ر', ⟨'ﺭ', 'ﺮ', 'ﺭ', 'ﺭ'⟩),
    ('ز', ⟨'ﺯ', 'ﺰ', 'ﺯ', 'ﺯ'⟩),
    ('ژ', ⟨'ﮊ', 'ﮋ', 'ﮊ', 'ﮊ'⟩),
    ('س', ⟨'ﺱ', 'ﺲ', 'ﺳ', 'ﺴ'⟩),
    ('ش', ⟨'ﺵ', 'ﺶ', 'ﺷ', 'ﺸ'⟩),
    ('ص', ⟨'ﺹ', 'ﺺ', 'ﺻ', 'ﺼ'⟩),
    ('ض', ⟨'ﺽ', 'ﺾ', 'ﺿ', 'ﻀ'⟩),
    ('ط', ⟨'ﻁ', 'ﻂ', 'ﻃ', 'ﻄ'⟩),
    ('ظ', ⟨'ﻅ', 'ﻆ', 'ﻇ', 'ﻈ'⟩),
    ('ع', ⟨'ﻉ', 'ﻊ', 'ﻋ', 'ﻌ'⟩),
    ('غ', ⟨'ﻍ', 'ﻎ', 'ﻏ', 'ﻐ'⟩),
    ('ف', ⟨'ﻑ', 'ﻒ', 'ﻓ', 'ﻔ'⟩),
    ('ق', ⟨'ﻕ', 'ﻖ', 'ﻗ', 'ﻘ'⟩),
    ('ک', ⟨'ﻙ', 'ﻚ', 'ﻛ', 'ﻜ'⟩),
    ('گ', ⟨'ﮒ', 'ﮓ', 'ﮔ', 'ﮕ'⟩),
    ('ل', ⟨'ﻝ', 'ﻞ', 'ﻟ', 'ﻠ'⟩),
    ('م', ⟨'ﻡ', 'ﻢ', 'ﻣ', 'ﻤ'⟩),
    ('ن', ⟨'ﻥ', 'ﻦ', 'ﻧ', 'ﻨ'⟩),
    ('و', ⟨'ﻭ', 'ﻮ', 'ﻭ', 'ﻭ'⟩),
    ('ه', ⟨'ﻫ', 'ﻬ', 'ﻭ', 'ﻮ'⟩),
    ('ی', ⟨'ﻱ', 'ﻲ', 'ﻳ', 'ﻴ'⟩),
    ('ئ', ⟨'ﺉ', 'ﺊ', 'ﺋ', 'ﺌ'⟩) ]

/-- `presentationForms[char]`. -/
def formsOf (c : Char) : Option Forms :=
  (presentationTable.find? (fun p => p.1 = c)).map (·.2)

/-- `nonConnectors` (translationHelpers.ts 192): letters that never join to
a following letter. -/
def nonConnectors : List Char :=
  ['ا', 'آ', 'د', 'ذ', 'ر', 'ز', 'ژ', 'و']

/-- `forms[formIndex]` with `0 = isolated, 1 = final, 2 = initial, 3 = medial`. -/
def formPick (f : Forms) : Nat → Char
  | 0 => f.isolated
  | 1 => f.fin
  | 2 => f.ini
  | _ => f.med

/-- The body of the contextual-shaping `map` (translationHelpers.ts 196-213)
at position `i`. -/
def shapeAt (chars : List Char) (i : Nat) : Char :=
  let c := chars.getD i ' '
  match formsOf c with
  | none => c
  | some f =>
    let prevOpt := if 0 < i then chars.get? (i - 1) else none
    let nextOpt := if i + 1 < chars.length then chars.get? (i + 1) else none
    let prevConnects : Bool :=
      match prevOpt with
      | some pc => (formsOf pc).isSome && !(nonConnectors.contains pc)
      | none => false
    let nextConnects : Bool :=
      match nextOpt with
      | some nc => (formsOf nc).isSome
      | none => false
    let formIndex : Nat :=
      if prevConnects && nextConnects then 3
      else if prevConnects then 1
      else if nextConnects then 2
      else 0
    formPick f formIndex

/-- Contextual form selection over the whole string. -/
def contextualShape (chars : List Char) : List Char :=
  (List.range chars.length).map (shapeAt chars)

/-- The directional test
`/[؀-ۿﭐ-﷿ﹰ-﻿]/.test(char)`. -/
def isRTLChar (c : Char) : Bool :=
  (0x600 ≤ c.toNat && c.toNat ≤ 0x6FF) ||
  (0xFB50 ≤ c.toNat && c.toNat ≤ 0xFDFF) ||
  (0xFE70 ≤ c.toNat && c.toNat ≤ 0xFEFF)

/-- The segmentation loop (translationHelpers.ts 216-237): maximal runs of
one directional classification.  `cur = ''` only before the first
character (the `currentText === ''` test). -/
def segGo : Str → List (Str × Bool) → Str → Bool → List (Str × Bool)
  | [], segs, cur, flag => if cur ≠ [] then segs ++ [(cur, flag)] else segs
  | c :: rest, segs, cur, flag =>
    let cRTL := isRTLChar c
    if cur = [] then segGo rest segs [c] cRTL
    else if cRTL = flag then segGo rest segs (cur ++ [c]) flag
    else segGo rest (segs ++ [(cur, flag)]) [c] cRTL

/-- Reverse the RTL runs and concatenate in original order
(translationHelpers.ts 240-242). -/
def processSegs (segs : List (Str × Bool)) : Str :=
  (segs.map (fun p => if p.2 then p.1.reverse else p.1)).flatten

/-- `applyRTLFormatting` (translationHelpers.ts 142-245): normalization,
contextual shaping, directional segmentation, selective reversal. -/
def applyRTLFormatting (s : Str) : Str :=
  processSegs (segGo (contextualShape (normalizePersian s)) [] [] false)

/-! ### Task runner pending-request table (useWorkerHandler.ts)

A pending request is a `requestId ↦ timeoutId` registration; resolve/reject
callbacks are modelled by the settlement events a transition emits. -/

/-- The distinguishable rejection reasons of the hook:
`'Worker timeout (30s)'`, a worker-reported error message, and the
`'Component unmounted'` cancellation. -/
inductive WorkerErr where
  | timeout : WorkerErr
  | workerFailure : Str → WorkerErr
  | cancelled : WorkerErr
deriving DecidableEq, Repr

/-- How a pending call settles. -/
inductive Settled where
  | resolvedWith : Str → Settled
  | rejectedWith : WorkerErr → Settled
deriving DecidableEq, Repr

/-- `resolversRef.current : Map<number, Resolver>`, keeping each pending
request's timeout handle. -/
abbrev PendingTable := List (Nat × Nat)

/-- `resolversRef.current.get(id)` (the timeout handle of a pending id). -/
def lookupId (t : PendingTable) (id : Nat) : Option Nat :=
  (t.find? (fun p => p.1 = id)).map (·.2)

/-- `resolversRef.current.delete(id)`. -/
def eraseId (t : PendingTable) (id : Nat) : PendingTable :=
  t.eraseP (fun p => p.1 = id)

/-- The timeout callback of `createDownloadPromise`
(useWorkerHandler.ts 179-185): if the id is still pending, remove its
entry and reject that call with the timeout error; otherwise do nothing. -/
def onTimeoutFire (t : PendingTable) (id : Nat) : PendingTable × List (Nat × Settled) :=
  if (lookupId t id).isSome then
    (eraseId t id, [(id, Settled.rejectedWith WorkerErr.timeout)])
  else (t, [])

/-- The `REVERSE_RESULT` branch of the message handler
(useWorkerHandler.ts 81-93): a matching pending id is settled with the
payload and removed; an unmatched reply settles nothing in the table. -/
def onReverseResult (t : PendingTable) (id : Nat) (v : Str) :
    PendingTable × List (Nat × Settled) :=
  if (lookupId t id).isSome then
    (eraseId t id, [(id, Settled.resolvedWith v)])
  else (t, [])

/-- The unmount cleanup (useWorkerHandler.ts 138-157): every pending call
is rejected with the cancellation error and the table is cleared. -/
def onUnmount (t : PendingTable) : PendingTable × List (Nat × Settled) :=
  ([], t.map (fun p => (p.1, Settled.rejectedWith WorkerErr.cancelled)))

/-- Per-character effect of the whole escape chain. -/
def escChar (c : Char) : Str :=
  if c = '\\' then ['\\', '\\']
  else if c = '"' then ['\\', '"']
  else if c = '\n' then ['\\', 'n']
  else if c = '\r' then ['\\', 'r']
  else if c = '\t' then ['\\', 't']
  else [c]

/-- Scan check: every `"` is immediately preceded by the previous scanned
character being `\`; `prev` is the character before the list's head. -/
def quotesGuardedFrom (prev : Char) : Str → Bool
  | [] => true
  | c :: rest =>
    if c = '"' && prev ≠ '\\' then false else quotesGuardedFrom c rest

/-- Eligibility of an item in `applyLoop` over a buffer of `len` lines:
translation present and truthy, index defined, nonzero and in bounds,
prefix defined and nonempty.  Returns the target index and the
replacement line. -/
def eligSlot (m : TransMap) (len : Nat) (it : ExtractedItem) : Option (Nat × Str) :=
  match lookupMap m it.term with
  | none => none
  | some t =>
    if t = [] then none
    else
      match it.dataLineIndex, it.linePfx with
      | some j, some p =>
        if j = 0 || p = [] then none
        else if len ≤ j then none
        else some (j, p ++ escapeSpecialCharacters t ++ ['"'])
      | _, _ => none

/-- The line-buffer effect of one `applyLoop` iteration. -/
def stepL (m : TransMap) (L : List Str) (it : ExtractedItem) : List Str :=
  match eligSlot m L.length it with
  | none => L
  | some jn => L.set jn.1 jn.2

/-- Last eligible write to line `k` over a run of items (`o` is the write
seen so far). -/
def lwGo (m : TransMap) (len k : Nat) : Option Str → List ExtractedItem → Option Str
  | o, [] => o
  | o, it :: rest =>
    lwGo m len k
      (match eligSlot m len it with
       | some jn => if jn.1 = k then some jn.2 else o
       | none => o) rest

/-- What extraction soundness records about an emitted item, relative to
the normalized line buffer `L`: the item's data comes from a value line at
its `dataLineIndex` that follows a bracketed-slot line, matches the
value-literal pattern with slot digits equal to the target, and supplies
the unescaped text and the recorded prefix. -/
def soundItem (L : List Str) (target : Nat) (it : ExtractedItem) : Prop :=
  it.term ≠ [] ∧
  ∃ j ln bl d lit,
    it.dataLineIndex = some j ∧ 0 < j ∧
    L[j]? = some ln ∧ ln ≠ [] ∧
    L[j - 1]? = some bl ∧ bracketNum (trimStr bl) ≠ none ∧
    dataMatch (trimStr ln) = some (d, lit) ∧
    digitsToNat d = target ∧
    it.originalText = unescapeData lit ∧
    it.linePfx = some ([' ', ' '] ++ d ++ " string data = ".toList ++ ['"'])

/-- The canonical body of a value line after its two-space indent:
`<slot digits> string data = "<lit>"`. -/
def canonBody (d lit : Str) : Str :=
  d ++ ' ' :: 's' :: 't' :: 'r' :: 'i' :: 'n' :: 'g' :: ' ' ::
    'd' :: 'a' :: 't' :: 'a' :: ' ' :: '=' :: ' ' :: '"' :: (lit ++ ['"'])

/-- A value line in the exact canonical shape the exporter writes:
two spaces of indent, single separating spaces, ` = `, and no trailing
characters: `  <slot digits> string data = "<lit>"`. -/
def canonLine (d lit : Str) : Str :=
  ' ' :: ' ' :: canonBody d lit

/-- A quoted literal that needs no escaping: no quote, backslash, tab,
line feed or carriage return. -/
def litSafe (lit : Str) : Bool :=
  lit.all (fun c =>
    c ≠ '"' && c ≠ '\\' && c ≠ '\t' && c ≠ '\n' && c ≠ '\r')

/-- Modelled from the spec's selection rule (design §4.4, stage 2), stated
independently of the implementation for comparison: a shaping-capable
letter takes the medial form when the preceding letter connects
(shaping-capable and not in the non-connector set) and the following
letter is shaping-capable; the final form when only the preceding letter
connects; the initial form when only the following letter is
shaping-capable; the isolated form otherwise.  Letters without
presentation forms pass through unchanged. -/
def specContextualForm (prevOpt : Option Char) (c : Char)
    (nextOpt : Option Char) : Char :=
  match formsOf c with
  | none => c
  | some f =>
    let prevConnects : Bool :=
      match prevOpt with
      | some pc => (formsOf pc).isSome && !(nonConnectors.contains pc)
      | none => false
    let nextCapable : Bool :=
      match nextOpt with
      | some nc => (formsOf nc).isSome
      | none => false
    if prevConnects && nextCapable then f.med
    else if prevConnects then f.fin
    else if nextCapable then f.ini
    else f.isolated

end UnityI2

namespace UnityI2

/-! ### Lemmas: line splitting and joining -/

theorem splitNl_ne_nil (s : Str) : splitNl s ≠ [] := by
  cases s with
  | nil => simp [splitNl]
  | cons c rest =>
    simp only [splitNl]
    split <;> simp

theorem joinNl_cons (l : Str) (rest : List Str) (h : rest ≠ []) :
    joinNl (l :: rest) = l ++ '\n' :: joinNl rest := by
  cases rest with
  | nil => exact absurd rfl h
  | cons r rs => rfl

theorem joinNl_splitNl (s : Str) : joinNl (splitNl s) = s := by
  induction s with
  | nil => rfl
  | cons c rest ih =>
    by_cases hc : c = '\n'
    · have h1 : splitNl (c :: rest) = [] :: splitNl rest := by
        simp [splitNl, hc]
      rw [h1, joinNl_cons _ _ (splitNl_ne_nil rest), List.nil_append, ih, hc]
    · have h1 : splitNl (c :: rest) =
          (c :: (splitNl rest).headI) :: (splitNl rest).tail := by
        simp [splitNl, hc]
      rw [h1]
      cases hr : splitNl rest with
      | nil => exact absurd hr (splitNl_ne_nil rest)
      | cons r0 rs =>
        rw [hr] at ih
        cases rs with
        | nil =>
          simp only [List.headI, List.tail_cons]
          simpa [joinNl] using congrArg (c :: ·) ih
        | cons r1 rr =>
          simp only [List.headI, List.tail_cons]
          rw [joinNl_cons (c :: r0) (r1 :: rr) (by simp),
              List.cons_append]
          rw [joinNl_cons r0 (r1 :: rr) (by simp)] at ih
          rw [ih]

theorem mem_splitNl_no_nl (s : Str) : ∀ l ∈ splitNl s, '\n' ∉ l := by
  induction s with
  | nil => intro l hl; simp [splitNl] at hl; simp [hl]
  | cons c rest ih =>
    intro l hl
    simp only [splitNl] at hl
    by_cases hc : c = '\n'
    · rw [if_pos hc] at hl
      rcases List.mem_cons.mp hl with h | h
      · simp [h]
      · exact ih l h
    · rw [if_neg hc] at hl
      cases hr : splitNl rest with
      | nil => exact absurd hr (splitNl_ne_nil rest)
      | cons r0 rs =>
        rw [hr] at hl
        simp only [List.headI, List.tail] at hl
        rcases List.mem_cons.mp hl with h | h
        · subst h
          intro hmem
          rcases List.mem_cons.mp hmem with h' | h'
          · exact hc h'.symm
          · exact ih r0 (by rw [hr]; exact List.mem_cons_self _ _) h'
        · exact ih l (by rw [hr]; exact List.mem_cons_of_mem _ h)

theorem splitNl_no_nl (l : Str) (h : '\n' ∉ l) : splitNl l = [l] := by
  induction l with
  | nil => rfl
  | cons c rest ih =>
    simp only [splitNl]
    have hc : c ≠ '\n' := fun e => h (by simp [e])
    rw [if_neg hc, ih (fun hm => h (List.mem_cons_of_mem _ hm))]
    simp [List.headI, List.tail]

theorem splitNl_append_nl (l t : Str) (h : '\n' ∉ l) :
    splitNl (l ++ '\n' :: t) = l :: splitNl t := by
  induction l with
  | nil => simp [splitNl]
  | cons c rest ih =>
    have hc : c ≠ '\n' := fun e => h (by simp [e])
    have h1 : splitNl (c :: (rest ++ '\n' :: t)) =
        (c :: (splitNl (rest ++ '\n' :: t)).headI) ::
          (splitNl (rest ++ '\n' :: t)).tail := by
      simp [splitNl, hc]
    rw [List.cons_append, h1, ih (fun hm => h (List.mem_cons_of_mem _ hm))]
    simp [List.headI]

theorem splitNl_joinNl (ls : List Str) (hne : ls ≠ [])
    (h : ∀ l ∈ ls, '\n' ∉ l) : splitNl (joinNl ls) = ls := by
  induction ls with
  | nil => exact absurd rfl hne
  | cons l rest ih =>
    cases rest with
    | nil => simpa [joinNl] using splitNl_no_nl l (h l (by simp))
    | cons r rs =>
      rw [joinNl_cons _ _ (by simp),
          splitNl_append_nl _ _ (h l (by simp)),
          ih (by simp) (fun x hx => h x (List.mem_cons_of_mem _ hx))]

/-! ### Lemmas: the escape chain -/

theorem replaceChar_append (t : Char) (r x y : Str) :
    replaceChar t r (x ++ y) = replaceChar t r x ++ replaceChar t r y := by
  induction x with
  | nil => rfl
  | cons c rest ih => simp [replaceChar, ih]

theorem escape_append (x y : Str) :
    escapeSpecialCharacters (x ++ y) =
      escapeSpecialCharacters x ++ escapeSpecialCharacters y := by
  simp [escapeSpecialCharacters, replaceChar_append]

theorem escape_singleton (c : Char) :
    escapeSpecialCharacters [c] = escChar c := by
  by_cases h1 : c = '\\'
  · simp [escapeSpecialCharacters, replaceChar, escChar, h1]
  by_cases h2 : c = '"'
  · simp [escapeSpecialCharacters, replaceChar, escChar, h1, h2]
  by_cases h3 : c = '\n'
  · simp [escapeSpecialCharacters, replaceChar, escChar, h1, h2, h3]
  by_cases h4 : c = '\r'
  · simp [escapeSpecialCharacters, replaceChar, escChar, h1, h2, h3, h4]
  by_cases h5 : c = '\t'
  · simp [escapeSpecialCharacters, replaceChar, escChar, h1, h2, h3, h4, h5]
  · simp [escapeSpecialCharacters, replaceChar, escChar, h1, h2, h3, h4, h5]

theorem escape_eq_flatMap (s : Str) :
    escapeSpecialCharacters s = s.flatMap escChar := by
  induction s with
  | nil => rfl
  | cons c rest ih =>
    have : escapeSpecialCharacters (c :: rest) =
        escapeSpecialCharacters [c] ++ escapeSpecialCharacters rest := by
      simpa using escape_append [c] rest
    rw [this, escape_singleton, ih, List.flatMap_cons]

theorem escChar_no_ctrl (c : Char) :
    '\n' ∉ escChar c ∧ '\r' ∉ escChar c ∧ '\t' ∉ escChar c := by
  by_cases h1 : c = '\\'
  · simp [escChar, h1]
  by_cases h2 : c = '"'
  · simp [escChar, h1, h2]
  by_cases h3 : c = '\n'
  · simp [escChar, h1, h2, h3]
  by_cases h4 : c = '\r'
  · simp [escChar, h1, h2, h3, h4]
  by_cases h5 : c = '\t'
  · simp [escChar, h1, h2, h3, h4, h5]
  · simp only [escChar, if_neg h1, if_neg h2, if_neg h3, if_neg h4, if_neg h5]
    refine ⟨?_, ?_, ?_⟩ <;>
      simp only [List.mem_singleton] <;> intro e <;>
        first
        | exact h3 e.symm
        | exact h4 e.symm
        | exact h5 e.symm

theorem escape_no_nl (s : Str) : '\n' ∉ escapeSpecialCharacters s := by
  rw [escape_eq_flatMap]
  intro h
  rcases List.mem_flatMap.mp h with ⟨c, _, hc⟩
  exact (escChar_no_ctrl c).1 hc

theorem escape_no_cr (s : Str) : '\r' ∉ escapeSpecialCharacters s := by
  rw [escape_eq_flatMap]
  intro h
  rcases List.mem_flatMap.mp h with ⟨c, _, hc⟩
  exact (escChar_no_ctrl c).2.1 hc

theorem escape_no_tab (s : Str) : '\t' ∉ escapeSpecialCharacters s := by
  rw [escape_eq_flatMap]
  intro h
  rcases List.mem_flatMap.mp h with ⟨c, _, hc⟩
  exact (escChar_no_ctrl c).2.2 hc

theorem quotesGuardedFrom_flatMap (s : Str) :
    ∀ prev, quotesGuardedFrom prev (s.flatMap escChar) = true := by
  induction s with
  | nil => intro prev; rfl
  | cons c rest ih =>
    intro prev
    rw [List.flatMap_cons]
    by_cases h1 : c = '\\'
    · simpa [escChar, h1, quotesGuardedFrom] using ih '\\'
    by_cases h2 : c = '"'
    · simpa [escChar, h1, h2, quotesGuardedFrom] using ih '"'
    by_cases h3 : c = '\n'
    · simpa [escChar, h1, h2, h3, quotesGuardedFrom] using ih 'n'
    by_cases h4 : c = '\r'
    · simpa [escChar, h1, h2, h3, h4, quotesGuardedFrom] using ih 'r'
    by_cases h5 : c = '\t'
    · simpa [escChar, h1, h2, h3, h4, h5, quotesGuardedFrom] using ih 't'
    · have : escChar c = [c] := by
        simp [escChar, h1, h2, h3, h4, h5]
      rw [this]
      simpa [quotesGuardedFrom, h2] using ih c

theorem quotesGuardedFrom_spec (L : Str) :
    ∀ prev, quotesGuardedFrom prev L = true →
      ∀ i, i < L.length → L.get? i = some '"' →
        (i = 0 → prev = '\\') ∧ (∀ k, i = k + 1 → L.get? k = some '\\') := by
  induction L with
  | nil => intro prev _ i hi; simp at hi
  | cons c rest ih =>
    intro prev hg i hi hq
    have hstep : ¬(c = '"' && prev ≠ '\\') = true ∧
        quotesGuardedFrom c rest = true := by
      by_cases hb : (c = '"' && prev ≠ '\\') = true
      · rw [quotesGuardedFrom, if_pos hb] at hg; exact absurd hg (by simp)
      · rw [quotesGuardedFrom, if_neg hb] at hg; exact ⟨hb, hg⟩
    cases i with
    | zero =>
      refine ⟨fun _ => ?_, fun k hk => by omega⟩
      simp only [List.get?] at hq
      have hc : c = '"' := by injection hq
      by_contra hp
      exact hstep.1 (by simp [hc, hp])
    | succ n =>
      have hrest := ih c hstep.2 n (by simpa using hi) (by simpa using hq)
      refine ⟨fun h => by omega, fun k hk => ?_⟩
      have hn : k = n := by omega
      subst hn
      cases k with
      | zero =>
        have := hrest.1 rfl
        simp [this]
      | succ m =>
        have := hrest.2 m rfl
        simpa using this

/-! ### Lemmas: replacement no-ops -/

theorem replaceChar_id (t : Char) (r s : Str) (h : ∀ c ∈ s, c ≠ t) :
    replaceChar t r s = s := by
  induction s with
  | nil => rfl
  | cons c rest ih =>
    have hc : c ≠ t := h c (by simp)
    simp [replaceChar, hc, ih (fun x hx => h x (List.mem_cons_of_mem _ hx))]

theorem replacePair_id (a b : Char) (r s : Str) (h : ∀ c ∈ s, c ≠ a) :
    replacePair a b r s = s := by
  induction s with
  | nil => rfl
  | cons c rest ih =>
    have hc : c ≠ a := h c (by simp)
    cases rest with
    | nil => rfl
    | cons c2 rr =>
      have : replacePair a b r (c :: c2 :: rr) =
          c :: replacePair a b r (c2 :: rr) := by
        simp [replacePair, hc]
      rw [this, ih (fun x hx => h x (List.mem_cons_of_mem _ hx))]

/-! ### Lemmas: the merge engine -/

theorem set_getD_self (L : List Str) (j : Nat) (h : j < L.length) :
    L.set j (L.getD j []) = L := by
  apply List.ext_getElem?
  intro n
  by_cases hn : j = n
  · subst hn
    rw [List.getElem?_set_self h]
    rw [List.getD_eq_getElem?_getD, List.getElem?_eq_getElem h]
    rfl
  · exact List.getElem?_set_ne hn

theorem stepL_length (m : TransMap) (L : List Str) (it : ExtractedItem) :
    (stepL m L it).length = L.length := by
  unfold stepL
  cases eligSlot m L.length it with
  | none => rfl
  | some jn => exact List.length_set _ _ _

theorem foldl_stepL_length (m : TransMap) (items : List ExtractedItem) :
    ∀ L : List Str, (items.foldl (stepL m) L).length = L.length := by
  induction items with
  | nil => intro L; rfl
  | cons it rest ih =>
    intro L
    rw [List.foldl_cons, ih, stepL_length]

/-- Inversion of a successful eligibility check. -/
theorem eligSlot_inv {m : TransMap} {len : Nat} {it : ExtractedItem}
    {j : Nat} {nl : Str} (helig : eligSlot m len it = some (j, nl)) :
    ∃ t p, lookupMap m it.term = some t ∧ t ≠ [] ∧
      it.dataLineIndex = some j ∧ it.linePfx = some p ∧
      j ≠ 0 ∧ p ≠ [] ∧ j < len ∧
      nl = p ++ escapeSpecialCharacters t ++ ['"'] := by
  unfold eligSlot at helig
  split at helig
  · cases helig
  next t hlk =>
    split at helig
    · cases helig
    next ht =>
      split at helig
      case _ hdi hp =>
        rename_i j0 p
        split at helig
        · cases helig
        next hz =>
          split at helig
          · cases helig
          next hb =>
            injection helig with e
            have hj : j0 = j := congrArg Prod.fst e
            have hnl : nl = p ++ escapeSpecialCharacters t ++ ['"'] :=
              (congrArg Prod.snd e).symm
            have hz' : ¬(j0 = 0 ∨ p = []) := by
              simpa using hz
            subst hj
            exact ⟨t, p, hlk, ht, hdi, hp,
              fun h => hz' (Or.inl h), fun h => hz' (Or.inr h),
              Nat.lt_of_not_le hb, hnl⟩
      case _ => cases helig

theorem mem_foldl_stepL (m : TransMap) (items : List ExtractedItem) :
    ∀ L : List Str, ∀ l ∈ items.foldl (stepL m) L,
      l ∈ L ∨ ∃ it ∈ items, ∃ t p, lookupMap m it.term = some t ∧
        it.linePfx = some p ∧ l = p ++ escapeSpecialCharacters t ++ ['"'] := by
  induction items with
  | nil => intro L l hl; exact Or.inl hl
  | cons it rest ih =>
    intro L l hl
    rw [List.foldl_cons] at hl
    rcases ih (stepL m L it) l hl with h | ⟨it', hit', t, p, h1, h2, h3⟩
    · unfold stepL at h
      revert h
      cases helig : eligSlot m L.length it with
      | none => exact fun h => Or.inl h
      | some jn =>
        intro h
        obtain ⟨j, nl⟩ := jn
        rcases List.mem_or_eq_of_mem_set h with h' | h'
        · exact Or.inl h'
        · rcases eligSlot_inv helig with ⟨t, p, hlk, _, _, hp, _, _, _, hnl⟩
          exact Or.inr ⟨it, by simp, t, p, hlk, hp, by rw [h', hnl]⟩
    · exact Or.inr ⟨it', List.mem_cons_of_mem _ hit', t, p, h1, h2, h3⟩

/-- The update applied by the loop keeps every line free of line feeds when
the item prefixes are. -/
theorem foldl_stepL_no_nl (m : TransMap) (items : List ExtractedItem)
    (hpfx : ∀ it ∈ items, ∀ p, it.linePfx = some p → '\n' ∉ p)
    (L : List Str) (hL : ∀ l ∈ L, '\n' ∉ l) :
    ∀ l ∈ items.foldl (stepL m) L, '\n' ∉ l := by
  intro l hl
  rcases mem_foldl_stepL m items L l hl with h | ⟨it, hit, t, p, _, h2, h3⟩
  · exact hL l h
  · subst h3
    intro hmem
    rcases List.mem_append.mp hmem with h | h
    · rcases List.mem_append.mp h with h | h
      · exact hpfx it hit p h2 h
      · exact escape_no_nl t h
    · simp at h

/-- `applyLoop`'s updated string is the join of the `stepL` fold over the
line buffer, provided no line or prefix smuggles in a line feed. -/
theorem applyLoop_fst (m : TransMap) :
    ∀ (items : List ExtractedItem),
      (∀ it ∈ items, ∀ p, it.linePfx = some p → '\n' ∉ p) →
      ∀ (L : List Str), L ≠ [] → (∀ l ∈ L, '\n' ∉ l) → ∀ cnt,
        (applyLoop m items (joinNl L) cnt).1 =
          joinNl (items.foldl (stepL m) L) := by
  intro items
  induction items with
  | nil => intro _ L _ _ cnt; rfl
  | cons it rest ih =>
    intro hpfx L hne hnl cnt
    have hpfx' : ∀ x ∈ rest, ∀ p, x.linePfx = some p → '\n' ∉ p :=
      fun x hx => hpfx x (List.mem_cons_of_mem _ hx)
    have hsplit : splitNl (joinNl L) = L := splitNl_joinNl L hne hnl
    rw [List.foldl_cons]
    cases hlk : lookupMap m it.term with
    | none =>
      have hstep : stepL m L it = L := by
        simp [stepL, eligSlot, hlk]
      rw [hstep]
      simp only [applyLoop, hlk]
      exact ih hpfx' L hne hnl cnt
    | some t =>
      by_cases ht : t = []
      · have hstep : stepL m L it = L := by
          simp [stepL, eligSlot, hlk, ht]
        rw [hstep]
        simp only [applyLoop, hlk, if_pos ht]
        exact ih hpfx' L hne hnl cnt
      · cases hdi : it.dataLineIndex with
        | none =>
          have hstep : stepL m L it = L := by
            simp [stepL, eligSlot, hlk, ht, hdi]
          rw [hstep]
          simp only [applyLoop, hlk, if_neg ht, hdi]
          exact ih hpfx' L hne hnl cnt
        | some j =>
          cases hp : it.linePfx with
          | none =>
            have hstep : stepL m L it = L := by
              simp [stepL, eligSlot, hlk, ht, hdi, hp]
            rw [hstep]
            simp only [applyLoop, hlk, if_neg ht, hdi, hp]
            exact ih hpfx' L hne hnl cnt
          | some p =>
            by_cases hz : (decide (j = 0) || decide (p = [])) = true
            · have hstep : stepL m L it = L := by
                simp only [stepL, eligSlot, hlk, hdi, hp, if_neg ht, if_pos hz]
              rw [hstep]
              simp only [applyLoop, hlk, if_neg ht, hdi, hp, if_pos hz]
              exact ih hpfx' L hne hnl cnt
            · by_cases hb : L.length ≤ j
              · have hstep : stepL m L it = L := by
                  simp only [stepL, eligSlot, hlk, hdi, hp, if_neg ht,
                    if_neg hz, if_pos hb]
                rw [hstep]
                simp only [applyLoop, hlk, if_neg ht, hdi, hp, if_neg hz,
                  hsplit, if_pos hb]
                exact ih hpfx' L hne hnl cnt
              · have hstep : stepL m L it =
                    L.set j (p ++ escapeSpecialCharacters t ++ ['"']) := by
                  simp only [stepL, eligSlot, hlk, hdi, hp, if_neg ht,
                    if_neg hz, if_neg hb]
                rw [hstep]
                by_cases heq : L.getD j [] =
                    p ++ escapeSpecialCharacters t ++ ['"']
                · have hset :
                      L.set j (p ++ escapeSpecialCharacters t ++ ['"']) = L := by
                    rw [← heq]
                    exact set_getD_self L j (Nat.lt_of_not_le hb)
                  rw [hset]
                  simp only [applyLoop, hlk, if_neg ht, hdi, hp, if_neg hz,
                    hsplit, if_neg hb, if_pos heq]
                  exact ih hpfx' L hne hnl cnt
                · simp only [applyLoop, hlk, if_neg ht, hdi, hp, if_neg hz,
                    hsplit, if_neg hb, if_neg heq]
                  set nl := p ++ escapeSpecialCharacters t ++ ['"'] with hnldef
                  have hne2 : L.set j nl ≠ [] := by
                    intro h0
                    have := congrArg List.length h0
                    rw [List.length_set] at this
                    exact hne (List.eq_nil_of_length_eq_zero this)
                  have hnl2 : ∀ l ∈ L.set j nl, '\n' ∉ l := by
                    intro l hl
                    rcases List.mem_or_eq_of_mem_set hl with h | h
                    · exact hnl l h
                    · subst h
                      intro hmem
                      rcases List.mem_append.mp hmem with h | h
                      · rcases List.mem_append.mp h with h | h
                        · exact hpfx it (by simp) p hp h
                        · exact escape_no_nl t h
                      · simp at h
                  exact ih hpfx' (L.set j nl) hne2 hnl2 (cnt + 1)

theorem lwGo_init (m : TransMap) (len k : Nat) :
    ∀ (items : List ExtractedItem) (o : Option Str),
      lwGo m len k o items =
        match lwGo m len k none items with
        | some v => some v
        | none => o := by
  intro items
  induction items with
  | nil => intro o; rfl
  | cons it rest ih =>
    intro o
    cases helig : eligSlot m len it with
    | none =>
      simp only [lwGo, helig]
      exact ih o
    | some jn =>
      by_cases hk : jn.1 = k
      · simp only [lwGo, helig, if_pos hk]
        rw [ih (some jn.2)]
        cases lwGo m len k none rest <;> simp
      · simp only [lwGo, helig, if_neg hk]
        exact ih o

theorem foldl_stepL_getElem (m : TransMap) :
    ∀ (items : List ExtractedItem) (L : List Str) (k : Nat),
      (items.foldl (stepL m) L)[k]? =
        match lwGo m L.length k none items with
        | some v => some v
        | none => L[k]? := by
  intro items
  induction items with
  | nil => intro L k; rfl
  | cons it rest ih =>
    intro L k
    rw [List.foldl_cons, ih (stepL m L it) k, stepL_length]
    cases helig : eligSlot m L.length it with
    | none =>
      have hstep : stepL m L it = L := by simp [stepL, helig]
      simp only [lwGo, helig, hstep]
    | some jn =>
      obtain ⟨j, nl⟩ := jn
      have hstep : stepL m L it = L.set j nl := by simp [stepL, helig]
      by_cases hk : j = k
      · subst hk
        rcases eligSlot_inv helig with ⟨t, p, _, _, _, _, _, _, hjlt, _⟩
        simp only [lwGo, helig, if_pos rfl, hstep, if_true]
        rw [lwGo_init m L.length j rest (some nl),
            List.getElem?_set_self hjlt]
        cases lwGo m L.length j none rest <;> simp
      · simp only [lwGo, helig, if_neg hk, hstep]
        rw [List.getElem?_set_ne hk]

theorem foldl_stepL_idem (m : TransMap) (items : List ExtractedItem)
    (L : List Str) :
    items.foldl (stepL m) (items.foldl (stepL m) L) =
      items.foldl (stepL m) L := by
  apply List.ext_getElem?
  intro k
  rw [foldl_stepL_getElem m items (items.foldl (stepL m) L) k,
      foldl_stepL_getElem m items L k, foldl_stepL_length]
  cases h : lwGo m L.length k none items with
  | none => simp [foldl_stepL_getElem m items L k, h]
  | some v => simp

/-- One-item run of the merge loop, expressed through the eligibility
check. -/
theorem applyLoop_single (m : TransMap) (content : Str) (it : ExtractedItem)
    (cnt : Nat) :
    applyLoop m [it] content cnt =
      match eligSlot m (splitNl content).length it with
      | none => (content, cnt)
      | some jn =>
        if (splitNl content).getD jn.1 [] = jn.2 then (content, cnt)
        else (joinNl ((splitNl content).set jn.1 jn.2), cnt + 1) := by
  cases hlk : lookupMap m it.term with
  | none => simp only [applyLoop, eligSlot, hlk]
  | some t =>
    by_cases ht : t = []
    · simp only [applyLoop, eligSlot, hlk, if_pos ht]
    · cases hdi : it.dataLineIndex with
      | none => simp only [applyLoop, eligSlot, hlk, if_neg ht, hdi]
      | some j =>
        cases hp : it.linePfx with
        | none => simp only [applyLoop, eligSlot, hlk, if_neg ht, hdi, hp]
        | some p =>
          by_cases hz : (decide (j = 0) || decide (p = [])) = true
          · simp only [applyLoop, eligSlot, hlk, if_neg ht, hdi, hp, if_pos hz]
          · by_cases hb : (splitNl content).length ≤ j
            · simp only [applyLoop, eligSlot, hlk, if_neg ht, hdi, hp,
                if_neg hz, if_pos hb]
            · by_cases heq : (splitNl content).getD j [] =
                  p ++ escapeSpecialCharacters t ++ ['"']
              · simp only [applyLoop, eligSlot, hlk, if_neg ht, hdi, hp,
                  if_neg hz, if_neg hb, if_pos heq]
              · simp only [applyLoop, eligSlot, hlk, if_neg ht, hdi, hp,
                  if_neg hz, if_neg hb, if_neg heq]

/-- The skip conditions of the claim (plus the falsy and bounds cases the
code actually tests) make the eligibility check fail. -/
theorem eligSlot_none_cases (m : TransMap) (len : Nat) (it : ExtractedItem)
    (h : lookupMap m it.term = none ∨ lookupMap m it.term = some [] ∨
      it.dataLineIndex = none ∨ it.dataLineIndex = some 0 ∨
      it.linePfx = none ∨ it.linePfx = some [] ∨
      (∀ j, it.dataLineIndex = some j → len ≤ j)) :
    eligSlot m len it = none := by
  cases helig : eligSlot m len it with
  | none => rfl
  | some jn =>
    obtain ⟨j, nl⟩ := jn
    rcases eligSlot_inv helig with ⟨t, p, hlk, ht, hdi, hp, hz, hpz, hlt, _⟩
    rcases h with h | h | h | h | h | h | h
    · rw [hlk] at h; cases h
    · rw [hlk] at h; injection h with e; exact absurd e ht
    · rw [hdi] at h; cases h
    · rw [hdi] at h; injection h with e; exact absurd e hz
    · rw [hp] at h; cases h
    · rw [hp] at h; injection h with e; exact absurd e hpz
    · exact absurd (h j hdi) (Nat.not_le_of_lt hlt)

end UnityI2

namespace UnityI2

/-- C1: the escape/unescape round trip fails on the two-character string
backslash-`n`.  `escapeSpecialCharacters` turns it into `\\n` (three
characters); the extractor's reverse chain then decodes the trailing `\n`
pair as a newline before it collapses the doubled backslash, yielding
backslash-newline instead of the original backslash-`n`. -/
theorem c1_roundtrip_fails :
    unescapeData (escapeSpecialCharacters ['\\', 'n']) = ['\\', '\n'] ∧
    (['\\', '\n'] : Str) ≠ ['\\', 'n'] := by
  constructor
  · rfl
  · decide

end UnityI2

namespace UnityI2

/-- C5 (counterexample): the claim says the merge engine skips exactly the
items lacking a mapping entry or with undefined `dataLineIndex`/`linePrefix`.
Here the mapping entry exists (it maps the term to the empty string) and
`dataLineIndex = 1` and `linePrefix = "p"` are defined and in bounds, yet
`applyTranslations` (part_003) leaves the content unchanged and reports 0,
because `!translation` is also true for the empty string. -/
theorem c5_empty_translation_skipped :
    applyTranslations ("a\nb".toList)
        [{ term := "t".toList, originalText := "x".toList,
           dataLineIndex := some 1, linePfx := some ("p".toList) }]
        [("t".toList, "".toList)] =
      ("a\nb".toList, 0) := by
  rfl

/-- C5 (amended): for a single item, part_003's `applyTranslations` leaves
the content and count unchanged exactly when the mapping entry is missing
or empty, the `dataLineIndex` is undefined, `0`, or out of bounds, or the
`linePrefix` is undefined or empty; for every other item the target line is
replaced by `linePrefix + escaped translation + '"'` and the count reports
`1` exactly when that replacement differs from the existing line. -/
theorem c5_merge_skip_and_apply (content : Str) (m : TransMap)
    (it : ExtractedItem) :
    ((lookupMap m it.term = none ∨ lookupMap m it.term = some [] ∨
        it.dataLineIndex = none ∨ it.dataLineIndex = some 0 ∨
        it.linePfx = none ∨ it.linePfx = some [] ∨
        (∀ j, it.dataLineIndex = some j → (splitNl content).length ≤ j)) →
      applyTranslations content [it] m = (content, 0)) ∧
    (∀ t j p, lookupMap m it.term = some t → t ≠ [] →
      it.dataLineIndex = some j → j ≠ 0 → it.linePfx = some p → p ≠ [] →
      j < (splitNl content).length →
      applyTranslations content [it] m =
        (joinNl ((splitNl content).set j
           (p ++ escapeSpecialCharacters t ++ ['"'])),
         if (splitNl content).getD j [] =
             p ++ escapeSpecialCharacters t ++ ['"'] then 0 else 1)) := by
  constructor
  · intro h
    have hnone := eligSlot_none_cases m (splitNl content).length it h
    show applyLoop m [it] content 0 = (content, 0)
    rw [applyLoop_single]
    simp only [hnone]
  · intro t j p hlk ht hdi hz hp hpz hlt
    have helig : eligSlot m (splitNl content).length it =
        some (j, p ++ escapeSpecialCharacters t ++ ['"']) := by
      simp only [eligSlot, hlk, hdi, hp, if_neg ht]
      rw [if_neg (by simpa using not_or_intro hz hpz),
          if_neg (Nat.not_le_of_lt hlt)]
    show applyLoop m [it] content 0 = _
    rw [applyLoop_single]
    simp only [helig]
    by_cases heq : (splitNl content).getD j [] =
        p ++ escapeSpecialCharacters t ++ ['"']
    · rw [if_pos heq, if_pos heq]
      have hset : (splitNl content).set j
          (p ++ escapeSpecialCharacters t ++ ['"']) = splitNl content := by
        rw [← heq]
        exact set_getD_self _ _ hlt
      rw [hset, joinNl_splitNl]
    · rw [if_neg heq, if_neg heq]

/-- C5 (witness): the amended characterization applied to a concrete
eligible item. -/
theorem c5_merge_witness :
    applyTranslations ("a\nb".toList)
        [{ term := "t".toList, originalText := "x".toList,
           dataLineIndex := some 1, linePfx := some ("p".toList) }]
        [("t".toList, "z".toList)] =
      (joinNl ((splitNl ("a\nb".toList)).set 1
         ("p".toList ++ escapeSpecialCharacters ("z".toList) ++ ['"'])),
       if (splitNl ("a\nb".toList)).getD 1 [] =
           "p".toList ++ escapeSpecialCharacters ("z".toList) ++ ['"']
       then 0 else 1) :=
  (c5_merge_skip_and_apply ("a\nb".toList) [("t".toList, "z".toList)]
      { term := "t".toList, originalText := "x".toList,
        dataLineIndex := some 1, linePfx := some ("p".toList) }).2
    ("z".toList) 1 ("p".toList) (by rfl) (by decide) (by rfl) (by decide)
    (by rfl) (by decide) (by decide)

/-- C6 (counterexample): the claim quantifies over every item list, but a
`linePrefix` containing a line feed breaks idempotence: the first
application splices a new physical line into the buffer, so the second
application rewrites a shifted line and the output changes again. -/
theorem c6_newline_prefix_not_idempotent :
    (applyTranslations
        (applyTranslations ("A\nB".toList)
            [{ term := "t".toList, originalText := "x".toList,
               dataLineIndex := some 1, linePfx := some ("X\nY".toList) }]
            [("t".toList, "z".toList)]).1
        [{ term := "t".toList, originalText := "x".toList,
           dataLineIndex := some 1, linePfx := some ("X\nY".toList) }]
        [("t".toList, "z".toList)]).1 ≠
      (applyTranslations ("A\nB".toList)
          [{ term := "t".toList, originalText := "x".toList,
             dataLineIndex := some 1, linePfx := some ("X\nY".toList) }]
          [("t".toList, "z".toList)]).1 := by
  decide

/-- C6 (amended): applying part_003's `applyTranslations` twice with the
same items and mapping yields the same content as applying it once,
provided no item's `linePrefix` contains a line feed — which holds for
every extractor-produced item, whose prefixes come from a single physical
line. -/
theorem c6_apply_idempotent (content : Str) (items : List ExtractedItem)
    (m : TransMap)
    (hpfx : ∀ it ∈ items, ∀ p, it.linePfx = some p → '\n' ∉ p) :
    (applyTranslations (applyTranslations content items m).1 items m).1 =
      (applyTranslations content items m).1 := by
  have hL0ne : splitNl content ≠ [] := splitNl_ne_nil content
  have hL0nl : ∀ l ∈ splitNl content, '\n' ∉ l := mem_splitNl_no_nl content
  have h1 := applyLoop_fst m items hpfx (splitNl content) hL0ne hL0nl 0
  rw [joinNl_splitNl content] at h1
  have hFne : items.foldl (stepL m) (splitNl content) ≠ [] := by
    intro h0
    have := congrArg List.length h0
    rw [foldl_stepL_length] at this
    exact hL0ne (List.eq_nil_of_length_eq_zero this)
  have hFnl : ∀ l ∈ items.foldl (stepL m) (splitNl content), '\n' ∉ l :=
    foldl_stepL_no_nl m items hpfx _ hL0nl
  have h2 := applyLoop_fst m items hpfx _ hFne hFnl 0
  show (applyLoop m items (applyTranslations content items m).1 0).1 = _
  show (applyLoop m items (applyLoop m items content 0).1 0).1 = _
  rw [h1, h2, foldl_stepL_idem, ← h1]
  rfl

/-- C6 (witness): idempotence at a concrete extractor-shaped item. -/
theorem c6_apply_idempotent_witness :
    (applyTranslations
        (applyTranslations ("A\nB".toList)
            [{ term := "t".toList, originalText := "x".toList,
               dataLineIndex := some 1, linePfx := some ("p".toList) }]
            [("t".toList, "z".toList)]).1
        [{ term := "t".toList, originalText := "x".toList,
           dataLineIndex := some 1, linePfx := some ("p".toList) }]
        [("t".toList, "z".toList)]).1 =
      (applyTranslations ("A\nB".toList)
          [{ term := "t".toList, originalText := "x".toList,
             dataLineIndex := some 1, linePfx := some ("p".toList) }]
          [("t".toList, "z".toList)]).1 := by
  apply c6_apply_idempotent
  intro it hit p hp
  rcases List.mem_singleton.mp hit with rfl
  simp only [ExtractedItem.linePfx] at hp
  injection hp with e
  rw [← e]
  decide

end UnityI2

namespace UnityI2

/-- Soundness of the part_003 extraction loop: every emitted item is taken
from a matching value line of the buffer (induction on the fuel `n`
bounding the number of unscanned lines). -/
theorem extractLoop_sound (target : Nat) (L : List Str) :
    ∀ (n : Nat) (rem : List Str) (i : Nat) (cur : Str)
      (acc : List ExtractedItem),
      rem.length ≤ n →
      rem = L.drop i →
      (∀ it ∈ acc, soundItem L target it) →
      ∀ it ∈ extractLoop target rem i cur acc, soundItem L target it := by
  intro n
  induction n with
  | zero =>
    intro rem i cur acc hlen _ hacc it hit
    have : rem = [] := List.eq_nil_of_length_eq_zero (Nat.le_zero.mp hlen)
    subst this
    exact hacc it hit
  | succ n ihn =>
    intro rem i cur acc hlen hrem hacc it hit
    cases rem with
    | nil =>
      exact hacc it hit
    | cons l rest =>
      have hrest1 : rest = L.drop (i + 1) := by
        have h : L.drop (i + 1) = List.drop 1 (L.drop i) := by
          rw [List.drop_drop]
        rw [h, ← hrem]
        rfl
      have hlen1 : rest.length ≤ n := by
        simpa using Nat.le_of_succ_le_succ (by simpa using hlen)
      cases hterm : termCap (trimStr l) with
      | some name =>
        rw [extractLoop.eq_def] at hit
        simp only [hterm] at hit
        exact ihn rest (i + 1) name acc hlen1 hrest1 hacc it hit
      | none =>
        cases hbr : bracketNum (trimStr l) with
        | none =>
          rw [extractLoop.eq_def] at hit
          simp only [hterm, hbr] at hit
          exact ihn rest (i + 1) cur acc hlen1 hrest1 hacc it hit
        | some d =>
          cases rest with
          | nil =>
            rw [extractLoop.eq_def] at hit
            simp only [hterm, hbr] at hit
            exact hacc it hit
          | cons next rest2 =>
            by_cases hne : next = []
            · subst hne
              rw [extractLoop.eq_def] at hit
              simp only [hterm, hbr, if_pos rfl] at hit
              exact ihn ([] :: rest2) (i + 1) cur acc hlen1 hrest1 hacc it hit
            · cases hdm : dataMatch (trimStr next) with
              | none =>
                rw [extractLoop.eq_def] at hit
                simp only [hterm, hbr, if_neg hne, hdm] at hit
                exact ihn (next :: rest2) (i + 1) cur acc hlen1 hrest1 hacc it hit
              | some dl =>
                rw [extractLoop.eq_def] at hit
                simp only [hterm, hbr, if_neg hne, hdm] at hit
                have hrest2 : rest2 = L.drop (i + 2) := by
                  have h : L.drop (i + 2) = List.drop 2 (L.drop i) := by
                    rw [List.drop_drop]
                  rw [h, ← hrem]
                  rfl
                have hlen2 : rest2.length ≤ n := by
                  have : rest2.length + 2 ≤ n + 1 := by simpa using hlen
                  omega
                have hlinei : L[i]? = some l := by
                  have h0 : (L.drop i)[0]? = L[i + 0]? := List.getElem?_drop L i 0
                  rw [← hrem] at h0
                  simpa using h0.symm
                have hlinej : L[i + 1]? = some next := by
                  have h1 : (L.drop i)[1]? = L[i + 1]? := List.getElem?_drop L i 1
                  rw [← hrem] at h1
                  simpa using h1.symm
                refine ihn rest2 (i + 2) cur _ hlen2 hrest2 ?_ it hit
                by_cases hpush :
                    (decide (digitsToNat dl.1 = target) &&
                      decide (cur ≠ [])) = true
                · rw [if_pos hpush]
                  intro x hx
                  rcases List.mem_append.mp hx with hx | hx
                  · exact hacc x hx
                  · rcases List.mem_singleton.mp hx with rfl
                    have hdt : digitsToNat dl.1 = target :=
                      of_decide_eq_true ((Bool.and_eq_true _ _).mp hpush).1
                    have hcur : cur ≠ [] :=
                      of_decide_eq_true ((Bool.and_eq_true _ _).mp hpush).2
                    refine ⟨hcur, i + 1, next, l, dl.1, dl.2, rfl,
                      Nat.succ_pos i, hlinej, hne, ?_, ?_, ?_, hdt, rfl, rfl⟩
                    · simpa using hlinei
                    · rw [hbr]
                      simp
                    · simpa using hdm
                · rw [if_neg hpush]
                  exact hacc

end UnityI2

namespace UnityI2

/-- C2 (counterexample): the claim says no `ExtractedItem` is produced for
a term whose declaration is never followed by a matching slot line, citing
the worker's `handleExtract`.  But `handleExtract` pushes every declared
term: on a one-line input holding only a term declaration it emits an item
with empty `originalText` and undefined `dataLineIndex` although no slot
line exists at all. -/
theorem c2_worker_emits_unmatched_term :
    handleExtract ("string Term = \"A\"".toList) 0 =
      [{ term := "A".toList, originalText := [],
         dataLineIndex := none, linePfx := none }] := by
  rfl

/-- C2 (amended): for the canonical extractor — part_003's
`extractTermsChunked`, the variant the spec's algorithm describes — every
returned item is taken from a matching value line: its `dataLineIndex`
points into the normalized line buffer at a nonempty line that follows a
bracketed-slot line and matches the value pattern with slot digits equal
to the target slot, `originalText` is that line's unescaped literal, and
`linePrefix` is the recorded prefix.  Consequently a term that never
reaches a matching slot contributes no item.  (The worker's
`handleExtract` instead emits placeholder items for unmatched terms; see
the counterexample.) -/
theorem c2_extract_items_from_matching_lines (content : Str) (target : Nat) :
    ∀ it ∈ extractTermsChunked content target,
      soundItem (splitNl (normalizeFileContent content)) target it := by
  intro it hit
  exact extractLoop_sound target (splitNl (normalizeFileContent content))
    (splitNl (normalizeFileContent content)).length
    (splitNl (normalizeFileContent content)) 0 [] []
    (Nat.le_refl _) (List.drop_zero _).symm (by simp) it hit

/-- C2 (witness): the characterization applied to the spec's concrete
scenario. -/
theorem c2_extract_items_witness :
    soundItem
      (splitNl (normalizeFileContent
        ("#Term: Greeting\n[0]\n  0 string data = \"Hello\"\n".toList))) 0
      { term := "Greeting".toList, originalText := "Hello".toList,
        dataLineIndex := some 2,
        linePfx := some ("  0 string data = \"".toList) } := by
  apply c2_extract_items_from_matching_lines
    ("#Term: Greeting\n[0]\n  0 string data = \"Hello\"\n".toList) 0
  decide

end UnityI2

namespace UnityI2

/-- The worker scan only ever appends to the accumulated results. -/
theorem handleLoop_acc (target : Nat) :
    ∀ (rem : List Str) (i : Nat) (cur : Option ExtractedItem) (found : Bool)
      (b : Option Nat) (acc : List ExtractedItem),
      ∃ t, handleLoop target rem i cur found b acc = acc ++ t := by
  intro rem
  induction rem with
  | nil =>
    intro i cur found b acc
    exact ⟨cur.toList, rfl⟩
  | cons l rest ih =>
    intro i cur found b acc
    rw [handleLoop.eq_def]
    cases hT : findTermW l with
    | some name =>
      simp only [hT]
      obtain ⟨t, ht⟩ := ih (i + 1) _ _ _ (acc ++ cur.toList)
      exact ⟨cur.toList ++ t, by rw [ht, List.append_assoc]⟩
    | none =>
      simp only [hT]
      exact ih (i + 1) _ _ _ acc

/-- Once `isFound` is set, the worker scan never alters the current item
again: it is emitted exactly as recorded. -/
theorem handleLoop_found (target : Nat) :
    ∀ (rem : List Str) (i : Nat) (it : ExtractedItem) (b : Option Nat)
      (acc : List ExtractedItem),
      ∃ tail,
        handleLoop target rem i (some it) true b acc = acc ++ it :: tail := by
  intro rem
  induction rem with
  | nil =>
    intro i it b acc
    exact ⟨[], rfl⟩
  | cons l rest ih =>
    intro i it b acc
    rw [handleLoop.eq_def]
    cases hT : findTermW l with
    | some name =>
      simp only [hT]
      obtain ⟨t, ht⟩ := handleLoop_acc target rest (i + 1) _ _ _ (acc ++ [it])
      refine ⟨t, ht.trans ?_⟩
      rw [List.append_assoc]
      rfl
    | none =>
      simp only [hT, Bool.not_true, Bool.false_and]
      obtain ⟨tail, htail⟩ := ih (i + 1) it _ acc
      exact ⟨tail, htail⟩

end UnityI2

namespace UnityI2

/-- C3 (counterexample): the claim cites part_003's `extractTermsChunked`,
but that extractor has no `isFound` guard: a term followed by two slot
lines for the target slot, each with a parseable value literal, yields two
items — the second match is recorded too, not ignored. -/
theorem c3_chunked_extractor_records_both_matches :
    extractTermsChunked
        (("#Term: A\n[0]\n  0 string data = \"x\"\n" ++
          "[0]\n  0 string data = \"y\"").toList) 0 =
      [{ term := "A".toList, originalText := "x".toList,
         dataLineIndex := some 2,
         linePfx := some ("  0 string data = \"".toList) },
       { term := "A".toList, originalText := "y".toList,
         dataLineIndex := some 4,
         linePfx := some ("  0 string data = \"".toList) }] := by
  rfl

/-- C3 (amended): first-match-wins holds in the worker's `handleExtract`
(the variant with the `isFound` flag): when the current term is still
unmatched and a line sets the bracket index to the target slot while the
following line parses as a value literal, the scan records that first
match — binding the value line's index and captured prefix — and the item
is emitted with exactly those fields no matter what follows, so any later
slot lines matching the same target for this term are ignored. -/
theorem c3_first_match_wins_worker (target : Nat) (l next : Str)
    (rest : List Str) (i : Nat) (it0 : ExtractedItem) (b : Option Nat)
    (acc : List ExtractedItem) (d : Str) (g : Str × Str × Str)
    (hterm : findTermW l = none)
    (hbr : findBracketW l = some d)
    (hd : digitsToNat d = target)
    (hne : next ≠ [])
    (hdm : findDataW next = some g) :
    ∃ tail,
      handleLoop target (l :: next :: rest) i (some it0) false b acc =
        acc ++ { term := it0.term, originalText := g.2.2,
                 dataLineIndex := some (i + 1),
                 linePfx := some (g.1 ++ g.2.1) } :: tail := by
  rw [handleLoop.eq_def]
  simp only [hterm, hbr, hd, hdm, Option.isSome_some, if_pos, if_true,
    Bool.not_false, Bool.true_and, List.head?_cons, decide_eq_true_eq,
    if_pos rfl, ne_eq, hne, not_false_eq_true, if_pos (by exact hne)]
  obtain ⟨tail, htail⟩ := handleLoop_found target (next :: rest) (i + 1)
    { term := it0.term, originalText := g.2.2,
      dataLineIndex := some (i + 1), linePfx := some (g.1 ++ g.2.1) }
    (some target) acc
  exact ⟨tail, htail⟩

end UnityI2

namespace UnityI2

/-- C3 (witness): first-match-wins at a concrete scan state whose
remaining lines contain a second matching slot pair. -/
theorem c3_first_match_wins_witness :
    ∃ tail,
      handleLoop 0
          ("[0]".toList :: "  0 string data = \"x\"".toList ::
            ["[0]".toList, "  0 string data = \"y\"".toList]) 1
          (some { term := "A".toList, originalText := [] }) false none [] =
        [] ++ { term := "A".toList, originalText := "x".toList,
                dataLineIndex := some 2,
                linePfx := some ("  ".toList ++ "0 ".toList) } :: tail :=
  c3_first_match_wins_worker 0 ("[0]".toList)
    ("  0 string data = \"x\"".toList)
    ["[0]".toList, "  0 string data = \"y\"".toList] 1
    { term := "A".toList, originalText := [] } none []
    ("0".toList) ("  ".toList, "0 ".toList, "x".toList)
    (by rfl) (by rfl) (by rfl) (by decide) (by rfl)

end UnityI2

namespace UnityI2

theorem takeWhile_append_not {p : Char → Bool} :
    ∀ (l : Str), (∀ c ∈ l, p c = true) → ∀ (c : Char), p c = false →
      ∀ (r : Str), (l ++ c :: r).takeWhile p = l := by
  intro l
  induction l with
  | nil =>
    intro _ c hc r
    simp [List.takeWhile_cons, hc]
  | cons a t ih =>
    intro hl c hc r
    have ha : p a = true := hl a (by simp)
    simp only [List.cons_append, List.takeWhile_cons, ha, if_true]
    rw [ih (fun x hx => hl x (List.mem_cons_of_mem _ hx)) c hc r]

theorem dropWhile_append_not {p : Char → Bool} :
    ∀ (l : Str), (∀ c ∈ l, p c = true) → ∀ (c : Char), p c = false →
      ∀ (r : Str), (l ++ c :: r).dropWhile p = c :: r := by
  intro l
  induction l with
  | nil =>
    intro _ c hc r
    simp [List.dropWhile_cons, hc]
  | cons a t ih =>
    intro hl c hc r
    have ha : p a = true := hl a (by simp)
    simp only [List.cons_append, List.dropWhile_cons, ha, if_true]
    exact ih (fun x hx => hl x (List.mem_cons_of_mem _ hx)) c hc r

theorem dropLit_self : ∀ (pfx s : Str), dropLit pfx (pfx ++ s) = some s := by
  intro pfx
  induction pfx with
  | nil => intro s; simp [dropLit]
  | cons c t ih =>
    intro s
    simp only [List.cons_append, dropLit, if_pos rfl]
    exact ih s

theorem litParse_safe :
    ∀ (lit : Str), litSafe lit = true → ∀ (r : Str),
      litParse (lit ++ '"' :: r) = some (lit, r) := by
  intro lit
  induction lit with
  | nil =>
    intro _ r
    rw [List.nil_append, litParse.eq_def]
    simp
  | cons c t ih =>
    intro h r
    have hc := (List.all_eq_true.mp h) c (by simp)
    simp only [Bool.and_eq_true, decide_eq_true_eq, ne_eq] at hc
    have hq : c ≠ '"' := by
      simpa using hc.1.1.1.1
    have hb : c ≠ '\\' := by
      simpa using hc.1.1.1.2
    have ht : litSafe t = true := by
      rw [litSafe, List.all_eq_true]
      intro x hx
      exact (List.all_eq_true.mp h) x (List.mem_cons_of_mem _ hx)
    rw [List.cons_append, litParse.eq_def]
    simp only [if_neg hq, if_neg hb, ih ht r]

theorem isWs_digit_false (c : Char) (h : isDigitC c = true) :
    isWs c = false := by
  cases hw : isWs c with
  | false => rfl
  | true =>
    exfalso
    simp only [isWs, Bool.or_eq_true, decide_eq_true_eq] at hw
    rcases hw with ((((((h1 | h1) | h1) | h1) | h1) | h1) | h1) | h1 <;>
      (subst h1; exact absurd h (by decide))

end UnityI2

namespace UnityI2

/-- Trimming a canonical value line strips exactly its two-space indent. -/
theorem trimStr_canonLine (c0 : Char) (d' lit : Str) (h0 : isDigitC c0 = true) :
    trimStr (canonLine (c0 :: d') lit) = canonBody (c0 :: d') lit := by
  have hws0 : isWs c0 = false := isWs_digit_false c0 h0
  have hcons : canonBody (c0 :: d') lit =
      c0 :: (d' ++ ' ' :: 's' :: 't' :: 'r' :: 'i' :: 'n' :: 'g' :: ' ' ::
        'd' :: 'a' :: 't' :: 'a' :: ' ' :: '=' :: ' ' :: '"' ::
          (lit ++ ['"'])) := rfl
  have h1 : List.dropWhile isWs (canonLine (c0 :: d') lit) =
      canonBody (c0 :: d') lit := by
    rw [canonLine, List.dropWhile_cons, if_pos (by decide),
      List.dropWhile_cons, if_pos (by decide), hcons,
      List.dropWhile_cons, if_neg (by simp [hws0])]
  obtain ⟨W, hW⟩ : ∃ W, canonBody (c0 :: d') lit = W ++ ['"'] := by
    refine ⟨(c0 :: d') ++ ' ' :: 's' :: 't' :: 'r' :: 'i' :: 'n' :: 'g' ::
      ' ' :: 'd' :: 'a' :: 't' :: 'a' :: ' ' :: '=' :: ' ' :: '"' :: lit, ?_⟩
    simp [canonBody]
  rw [trimStr, h1, hW, List.reverse_append]
  simp only [List.reverse_cons, List.reverse_nil, List.nil_append,
    List.singleton_append]
  rw [List.dropWhile_cons, if_neg (by decide), List.reverse_cons,
    List.reverse_reverse]

/-- The `DATA` regex on a canonical body captures exactly the slot digits
and the literal. -/
theorem dataMatch_canonBody (c0 : Char) (d' lit : Str)
    (hd : (c0 :: d').all isDigitC = true) (hlit : litSafe lit = true) :
    dataMatch (canonBody (c0 :: d') lit) = some (c0 :: d', lit) := by
  have hdall : ∀ c ∈ (c0 :: d'), isDigitC c = true := List.all_eq_true.mp hd
  have hws0 : isWs c0 = false :=
    isWs_digit_false c0 (hdall c0 (by simp))
  have hs1 : (canonBody (c0 :: d') lit).dropWhile isWs =
      canonBody (c0 :: d') lit := by
    rw [show canonBody (c0 :: d') lit =
        c0 :: (d' ++ ' ' :: 's' :: 't' :: 'r' :: 'i' :: 'n' :: 'g' :: ' ' ::
          'd' :: 'a' :: 't' :: 'a' :: ' ' :: '=' :: ' ' :: '"' ::
            (lit ++ ['"'])) from rfl,
      List.dropWhile_cons, if_neg (by simp [hws0])]
  have htake : (canonBody (c0 :: d') lit).takeWhile isDigitC = c0 :: d' :=
    takeWhile_append_not (c0 :: d') hdall ' ' (by decide) _
  have hdrop : (canonBody (c0 :: d') lit).dropWhile isDigitC =
      ' ' :: 's' :: 't' :: 'r' :: 'i' :: 'n' :: 'g' :: ' ' ::
        'd' :: 'a' :: 't' :: 'a' :: ' ' :: '=' :: ' ' :: '"' ::
          (lit ++ ['"']) :=
    dropWhile_append_not (c0 :: d') hdall ' ' (by decide) _
  have hstr : ("string".toList : Str) = ['s', 't', 'r', 'i', 'n', 'g'] := rfl
  have hdata : ("data".toList : Str) = ['d', 'a', 't', 'a'] := rfl
  have hlp : litParse (lit ++ '"' :: []) = some (lit, []) :=
    litParse_safe lit hlit []
  rw [dataMatch]
  rw [hs1, htake, hdrop]
  simp only [hstr, hdata, dropLit, List.takeWhile_cons, List.dropWhile_cons]
  simp +decide [isWs, isDigitC]
  simp only [dropLit, List.dropWhile_cons]
  simp +decide [isWs]
  rw [hlp]
  simp

end UnityI2

namespace UnityI2

/-- C4 (counterexample): the invariant fails byte-for-byte on a value line
indented with three spaces instead of two.  Extraction still produces the
item (the `DATA` regex is matched against the trimmed line and the prefix
is hard-coded with a two-space indent), but
`linePrefix + escaped value + closing quote` differs from the line. -/
theorem c4_reconstruction_fails_noncanonical_indent :
    extractTermsChunked
        ("#Term: T\n[0]\n   0 string data = \"Hi\"".toList) 0 =
      [{ term := "T".toList, originalText := "Hi".toList,
         dataLineIndex := some 2,
         linePfx := some ("  0 string data = \"".toList) }] ∧
    "  0 string data = \"".toList ++
        escapeSpecialCharacters ("Hi".toList) ++ ['"'] ≠
      (splitNl (normalizeFileContent
        ("#Term: T\n[0]\n   0 string data = \"Hi\"".toList))).getD 2 [] := by
  constructor
  · rfl
  · decide

/-- C4 (amended): for an item produced by part_003's extractor whose value
line has the canonical shape `  <digits> string data = "<lit>"` with a
literal needing no escaping, `linePrefix + escaped originalText + '"'`
reconstructs the line byte-identically; and when the merge engine rewrites
that line with a present, nonempty translation, the line becomes
`linePrefix + escaped translation + '"'` — same prefix, same closing
quote, only the quoted value segment differs — and no other line of the
buffer changes. -/
theorem c4_reconstruction_canonical (content : Str) (target : Nat)
    (it : ExtractedItem) (j : Nat) (c0 : Char) (d' lit : Str)
    (hit : it ∈ extractTermsChunked content target)
    (hdi : it.dataLineIndex = some j)
    (hline : (splitNl (normalizeFileContent content))[j]? =
      some (canonLine (c0 :: d') lit))
    (h0 : (c0 :: d').all isDigitC = true)
    (hlit : litSafe lit = true) :
    ∃ p, it.linePfx = some p ∧
      p ++ escapeSpecialCharacters it.originalText ++ ['"'] =
        canonLine (c0 :: d') lit ∧
      ∀ m t, lookupMap m it.term = some t → t ≠ [] →
        (applyTranslations
            (joinNl (splitNl (normalizeFileContent content))) [it] m).1 =
          joinNl ((splitNl (normalizeFileContent content)).set j
            (p ++ escapeSpecialCharacters t ++ ['"'])) := by
  have hsound := extractLoop_sound target
    (splitNl (normalizeFileContent content))
    (splitNl (normalizeFileContent content)).length
    (splitNl (normalizeFileContent content)) 0 [] []
    (Nat.le_refl _) (List.drop_zero _).symm (by simp) it hit
  obtain ⟨-, j', ln, bl, d0, lit0, hdi', hjpos, hlnj, -, -, -, hdm, -,
    horig, hpfx⟩ := hsound
  have hj : j = j' := by
    rw [hdi] at hdi'
    exact Option.some.inj hdi'
  subst hj
  have hln : ln = canonLine (c0 :: d') lit := by
    rw [hline] at hlnj
    exact (Option.some.inj hlnj).symm
  subst hln
  rw [trimStr_canonLine c0 d' lit ((List.all_eq_true.mp h0) c0 (by simp)),
    dataMatch_canonBody c0 d' lit h0 hlit] at hdm
  have e := Option.some.inj hdm
  have hd0 : c0 :: d' = d0 := congrArg Prod.fst e
  have hlit0 : lit = lit0 := congrArg Prod.snd e
  subst hd0
  subst hlit0
  have hnobs : ∀ c ∈ lit, c ≠ '\\' := by
    intro c hc
    have := (List.all_eq_true.mp hlit) c hc
    simp only [Bool.and_eq_true, decide_eq_true_eq, ne_eq] at this
    simpa using this.1.1.1.2
  have huid : unescapeData lit = lit := by
    rw [unescapeData, replacePair_id _ _ _ _ hnobs,
      replacePair_id _ _ _ _ hnobs, replacePair_id _ _ _ _ hnobs,
      replacePair_id _ _ _ _ hnobs, replacePair_id _ _ _ _ hnobs]
  have hsafe : ∀ c ∈ lit,
      c ≠ '"' ∧ c ≠ '\\' ∧ c ≠ '\t' ∧ c ≠ '\n' ∧ c ≠ '\r' := by
    intro c hc
    have := (List.all_eq_true.mp hlit) c hc
    simp only [Bool.and_eq_true, decide_eq_true_eq, ne_eq] at this
    exact ⟨this.1.1.1.1, this.1.1.1.2, this.1.1.2, this.1.2, this.2⟩
  have heid : escapeSpecialCharacters lit = lit := by
    rw [escapeSpecialCharacters,
      replaceChar_id _ _ _ (fun c hc => (hsafe c hc).2.1),
      replaceChar_id _ _ _ (fun c hc => (hsafe c hc).1),
      replaceChar_id _ _ _ (fun c hc => (hsafe c hc).2.2.2.1),
      replaceChar_id _ _ _ (fun c hc => (hsafe c hc).2.2.2.2),
      replaceChar_id _ _ _ (fun c hc => (hsafe c hc).2.2.1)]
  have hmid : (" string data = ".toList : Str) =
      [' ', 's', 't', 'r', 'i', 'n', 'g', ' ', 'd', 'a', 't', 'a',
       ' ', '=', ' '] := rfl
  refine ⟨[' ', ' '] ++ (c0 :: d') ++ " string data = ".toList ++ ['"'],
    hpfx, ?_, ?_⟩
  · rw [horig, huid, heid]
    simp [canonLine, canonBody, hmid]
  · intro m t hlk ht
    have hjlt : j < (splitNl (normalizeFileContent content)).length := by
      rcases List.getElem?_eq_some_iff.mp hlnj with ⟨h, _⟩
      exact h
    have hpne : ([' ', ' '] ++ (c0 :: d') ++
        " string data = ".toList ++ ['"'] : Str) ≠ [] := by
      simp
    have helig : eligSlot m
        (splitNl (joinNl (splitNl (normalizeFileContent content)))).length
        it = some (j, ([' ', ' '] ++ (c0 :: d') ++
          " string data = ".toList ++ ['"']) ++
            escapeSpecialCharacters t ++ ['"']) := by
      rw [splitNl_joinNl _ (splitNl_ne_nil _) (mem_splitNl_no_nl _)]
      simp only [eligSlot, hlk, hdi, hpfx, if_neg ht]
      rw [if_neg (by
            simp only [decide_eq_true_eq, Bool.or_eq_true]
            rintro (h | h)
            · omega
            · exact hpne h),
        if_neg (Nat.not_le_of_lt hjlt)]
    show (applyLoop m [it]
        (joinNl (splitNl (normalizeFileContent content))) 0).1 = _
    rw [applyLoop_single]
    simp only [helig]
    rw [splitNl_joinNl _ (splitNl_ne_nil _) (mem_splitNl_no_nl _)]
    by_cases heq : (splitNl (normalizeFileContent content)).getD j [] =
        ([' ', ' '] ++ (c0 :: d') ++ " string data = ".toList ++ ['"']) ++
          escapeSpecialCharacters t ++ ['"']
    · rw [if_pos heq]
      have hset : (splitNl (normalizeFileContent content)).set j
          (([' ', ' '] ++ (c0 :: d') ++ " string data = ".toList ++ ['"']) ++
            escapeSpecialCharacters t ++ ['"']) =
          splitNl (normalizeFileContent content) := by
        rw [← heq]
        exact set_getD_self _ _ hjlt
      rw [hset]
    · rw [if_neg heq]

end UnityI2

namespace UnityI2

/-- C4 (witness): reconstruction and merge behavior at the spec's concrete
scenario line `  0 string data = "Hello"`. -/
theorem c4_reconstruction_witness :
    ∃ p, ({ term := "Greeting".toList, originalText := "Hello".toList,
            dataLineIndex := some 2,
            linePfx := some ("  0 string data = \"".toList) } :
          ExtractedItem).linePfx = some p ∧
      p ++ escapeSpecialCharacters ("Hello".toList) ++ ['"'] =
        canonLine ('0' :: []) ("Hello".toList) ∧
      ∀ m t, lookupMap m ("Greeting".toList) = some t → t ≠ [] →
        (applyTranslations
            (joinNl (splitNl (normalizeFileContent
              ("#Term: Greeting\n[0]\n  0 string data = \"Hello\"".toList))))
            [{ term := "Greeting".toList, originalText := "Hello".toList,
               dataLineIndex := some 2,
               linePfx := some ("  0 string data = \"".toList) }] m).1 =
          joinNl ((splitNl (normalizeFileContent
              ("#Term: Greeting\n[0]\n  0 string data = \"Hello\"".toList))).set 2
            (p ++ escapeSpecialCharacters t ++ ['"'])) :=
  c4_reconstruction_canonical
    ("#Term: Greeting\n[0]\n  0 string data = \"Hello\"".toList) 0
    { term := "Greeting".toList, originalText := "Hello".toList,
      dataLineIndex := some 2,
      linePfx := some ("  0 string data = \"".toList) }
    2 '0' [] ("Hello".toList) (by decide) (by rfl) (by rfl) (by decide)
    (by decide)

end UnityI2

namespace UnityI2

/-- The slot capture of a successful `DATA` match consists of digits. -/
theorem dataMatch_digits {s : Str} {pr : Str × Str}
    (h : dataMatch s = some pr) : ∀ c ∈ pr.1, isDigitC c = true := by
  simp only [dataMatch] at h
  split at h
  · cases h
  · split at h
    · cases h
    · split at h
      · cases h
      · split at h
        · cases h
        · split at h
          · cases h
          · split at h
            · split at h
              · split at h
                · cases h
                · split at h
                  · injection h with e
                    intro c hc
                    rw [← e] at hc
                    exact List.mem_takeWhile_imp hc
                  · cases h
              · cases h
            · cases h

end UnityI2

namespace UnityI2

/-- C10: the escape chain emits no literal line feed, carriage return or
tab; every double quote it emits is immediately preceded by a backslash;
every prefix recorded by the part_003 extractor is free of line feeds; and
therefore the merged output of `applyTranslations` has exactly as many
physical lines as its input whenever the item prefixes are newline-free
(in particular for extractor-produced items). -/
theorem c10_escape_single_line :
    (∀ s : Str, '\n' ∉ escapeSpecialCharacters s ∧
      '\r' ∉ escapeSpecialCharacters s ∧ '\t' ∉ escapeSpecialCharacters s) ∧
    (∀ (s : Str) (i : Nat), i < (escapeSpecialCharacters s).length →
      (escapeSpecialCharacters s).get? i = some '"' →
      0 < i ∧ (escapeSpecialCharacters s).get? (i - 1) = some '\\') ∧
    (∀ (content : Str) (target : Nat),
      ∀ it ∈ extractTermsChunked content target,
        ∀ p, it.linePfx = some p → '\n' ∉ p) ∧
    (∀ (content : Str) (items : List ExtractedItem) (m : TransMap),
      (∀ it ∈ items, ∀ p, it.linePfx = some p → '\n' ∉ p) →
      (splitNl (applyTranslations content items m).1).length =
        (splitNl content).length) := by
  refine ⟨fun s => ⟨escape_no_nl s, escape_no_cr s, escape_no_tab s⟩,
    ?_, ?_, ?_⟩
  · intro s i hi hq
    rw [escape_eq_flatMap] at hi hq
    have hspec := quotesGuardedFrom_spec (s.flatMap escChar) 'a'
      (quotesGuardedFrom_flatMap s 'a') i hi hq
    cases i with
    | zero => exact absurd (hspec.1 rfl) (by decide)
    | succ k =>
      refine ⟨Nat.succ_pos k, ?_⟩
      rw [escape_eq_flatMap]
      simpa using hspec.2 k rfl
  · intro content target it hit p hp
    have hsound := extractLoop_sound target
      (splitNl (normalizeFileContent content))
      (splitNl (normalizeFileContent content)).length
      (splitNl (normalizeFileContent content)) 0 [] []
      (Nat.le_refl _) (List.drop_zero _).symm (by simp) it hit
    obtain ⟨-, j, ln, bl, d, lit, -, -, -, -, -, -, hdm, -, -, hpfx⟩ := hsound
    rw [hp] at hpfx
    have hpe : p = [' ', ' '] ++ d ++ " string data = ".toList ++ ['"'] :=
      Option.some.inj hpfx
    subst hpe
    have hdig : ∀ c ∈ d, isDigitC c = true := dataMatch_digits hdm
    intro hmem
    rcases List.mem_append.mp hmem with hmem | hmem
    · rcases List.mem_append.mp hmem with hmem | hmem
      · rcases List.mem_append.mp hmem with hmem | hmem
        · simp at hmem
        · exact absurd (hdig '\n' hmem) (by decide)
      · revert hmem
        decide
    · simp at hmem
  · intro content items m hpfx
    have hL0ne : splitNl content ≠ [] := splitNl_ne_nil content
    have hL0nl : ∀ l ∈ splitNl content, '\n' ∉ l := mem_splitNl_no_nl content
    have h1 := applyLoop_fst m items hpfx (splitNl content) hL0ne hL0nl 0
    rw [joinNl_splitNl content] at h1
    have hFne : items.foldl (stepL m) (splitNl content) ≠ [] := by
      intro h0
      have := congrArg List.length h0
      rw [foldl_stepL_length] at this
      exact hL0ne (List.eq_nil_of_length_eq_zero this)
    have hFnl : ∀ l ∈ items.foldl (stepL m) (splitNl content), '\n' ∉ l :=
      foldl_stepL_no_nl m items hpfx _ hL0nl
    show (splitNl (applyLoop m items content 0).1).length = _
    rw [h1, splitNl_joinNl _ hFne hFnl, foldl_stepL_length]

/-- C10 (witness): the quote-guard and the line-count preservation at
concrete inputs. -/
theorem c10_escape_single_line_witness :
    (0 < 1 ∧ (escapeSpecialCharacters ['"']).get? 0 = some '\\') ∧
    (splitNl (applyTranslations ("a\nb".toList)
        [{ term := "t".toList, originalText := "x".toList,
           dataLineIndex := some 1, linePfx := some ("p".toList) }]
        [("t".toList, "z".toList)]).1).length =
      (splitNl ("a\nb".toList)).length := by
  constructor
  · exact c10_escape_single_line.2.1 ['"'] 1 (by decide) (by decide)
  · apply c10_escape_single_line.2.2.2
    intro it hit p hp
    rcases List.mem_singleton.mp hit with rfl
    simp only [ExtractedItem.linePfx] at hp
    injection hp with e
    rw [← e]
    decide

end UnityI2

namespace UnityI2

/-- C7: the contextual form chosen by the shaping stage for each position
is exactly the spec's neighbor rule applied to the normalized characters:
medial when the preceding letter connects and the following letter is
shaping-capable, final when only the preceding connects, initial when only
the following is shaping-capable, isolated otherwise; non-letters pass
through.  The form depends only on the two immediate neighbors. -/
theorem c7_contextual_form_rule (s : Str) (i : Nat)
    (hi : i < (normalizePersian s).length) :
    (contextualShape (normalizePersian s)).get? i =
      some (specContextualForm
        (if 0 < i then (normalizePersian s).get? (i - 1) else none)
        ((normalizePersian s).getD i ' ')
        ((normalizePersian s).get? (i + 1))) := by
  have h1 : (contextualShape (normalizePersian s)).get? i =
      some (shapeAt (normalizePersian s) i) := by
    rw [contextualShape, List.get?_eq_getElem?, List.getElem?_map,
      List.getElem?_range hi]
    rfl
  rw [h1]
  congr 1
  have hnext : (if i + 1 < (normalizePersian s).length then
      (normalizePersian s).get? (i + 1) else none) =
      (normalizePersian s).get? (i + 1) := by
    by_cases h : i + 1 < (normalizePersian s).length
    · rw [if_pos h]
    · rw [if_neg h, eq_comm]
      exact List.get?_eq_none.mpr (Nat.le_of_not_lt h)
  simp only [shapeAt, specContextualForm, hnext]
  cases hf : formsOf ((normalizePersian s).getD i ' ') with
  | none => rfl
  | some f =>
    cases hprev : (if 0 < i then (normalizePersian s).get? (i - 1)
        else none) with
    | none =>
      cases hnextv : (normalizePersian s).get? (i + 1) with
      | none => rfl
      | some nc =>
        by_cases hx : (formsOf nc).isSome = true <;>
          simp [hx, formPick]
    | some pc =>
      cases hnextv : (normalizePersian s).get? (i + 1) with
      | none =>
        by_cases hy : (formsOf pc).isSome = true ∧ pc ∉ nonConnectors <;>
          simp [hy, formPick]
      | some nc =>
        by_cases hy : (formsOf pc).isSome = true ∧ pc ∉ nonConnectors <;>
          by_cases hx : (formsOf nc).isSome = true <;>
            simp [hy, hx, formPick]

end UnityI2

namespace UnityI2

/-- C7 (witness): the rule evaluated on a concrete two-letter Persian
word (seen followed by lam): the trailing lam takes its final form. -/
theorem c7_contextual_form_witness :
    1 < (normalizePersian ("سل".toList)).length ∧
    (contextualShape (normalizePersian ("سل".toList))).get? 1 =
      some (specContextualForm
        (if 0 < 1 then (normalizePersian ("سل".toList)).get? (1 - 1) else none)
        ((normalizePersian ("سل".toList)).getD 1 ' ')
        ((normalizePersian ("سل".toList)).get? (1 + 1))) :=
  ⟨by decide, c7_contextual_form_rule ("سل".toList) 1 (by decide)⟩

/-- `processSegs` distributes over a trailing left-to-right run. -/
theorem processSegs_append_ltr (segs : List (Str × Bool)) (cur : Str) :
    processSegs (segs ++ [(cur, false)]) = processSegs segs ++ cur := by
  simp [processSegs]

/-- The segmentation loop on an all-LTR tail emits the text unchanged. -/
theorem segGo_ltr :
    ∀ (u : Str) (segs : List (Str × Bool)) (cur : Str),
      (∀ c ∈ u, isRTLChar c = false) →
      processSegs (segGo u segs cur false) =
        processSegs segs ++ cur ++ u := by
  intro u
  induction u with
  | nil =>
    intro segs cur _
    by_cases hcur : cur = []
    · subst hcur
      simp [segGo, processSegs]
    · simp [segGo, hcur, processSegs_append_ltr]
  | cons c rest ih =>
    intro segs cur h
    have hc : isRTLChar c = false := h c (by simp)
    have hrest : ∀ x ∈ rest, isRTLChar x = false :=
      fun x hx => h x (List.mem_cons_of_mem _ hx)
    by_cases hcur : cur = []
    · subst hcur
      rw [segGo, if_pos rfl, hc, ih segs [c] hrest]
      simp
    · rw [segGo, if_neg hcur, hc, if_pos rfl, ih segs (cur ++ [c]) hrest]
      simp

/-- C8: on input made entirely of non-script characters (no code point in
the Arabic block or the presentation-form blocks, i.e. `isRTLChar` is
false everywhere), the shaper is the identity: normalization touches only
Arabic-block letters, no character has presentation forms, and the single
all-LTR run is never reversed. -/
theorem c8_nonscript_unchanged (s : Str)
    (h : ∀ c ∈ s, isRTLChar c = false) :
    applyRTLFormatting s = s := by
  have htab : ∀ q ∈ presentationTable, isRTLChar q.1 = true := by decide
  have hf : ∀ c, isRTLChar c = false → formsOf c = none := by
    intro c hc
    have hfind : presentationTable.find? (fun p => p.1 = c) = none := by
      rw [List.find?_eq_none]
      intro q hq
      simp only [decide_eq_true_eq]
      intro e
      have := htab _ hq
      rw [e, hc] at this
      cases this
    rw [formsOf, hfind]
    rfl
  have hnc : ∀ c, isRTLChar c = false → normPersianChar c = c := by
    intro c hc
    have h1 : c ≠ 'ك' := fun e => by rw [e] at hc; exact absurd hc (by decide)
    have h2 : c ≠ 'ي' := fun e => by rw [e] at hc; exact absurd hc (by decide)
    have h3 : c ≠ 'ة' := fun e => by rw [e] at hc; exact absurd hc (by decide)
    have h4 : c ≠ 'أ' := fun e => by rw [e] at hc; exact absurd hc (by decide)
    have h5 : c ≠ 'إ' := fun e => by rw [e] at hc; exact absurd hc (by decide)
    have h6 : c ≠ 'ؤ' := fun e => by rw [e] at hc; exact absurd hc (by decide)
    simp [normPersianChar, h1, h2, h3, h4, h5, h6]
  have hnorm : normalizePersian s = s := by
    rw [normalizePersian,
      List.map_congr_left (fun c hc => hnc c (h c hc))]
    exact List.map_id' s
  have hshape : contextualShape s = s := by
    apply List.ext_getElem?
    intro n
    by_cases hn : n < s.length
    · rw [contextualShape, List.getElem?_map, List.getElem?_range hn]
      have hc : s.getD n ' ' = s[n] := List.getD_eq_getElem s ' ' hn
      have hfn : formsOf (s.getD n ' ') = none := by
        rw [hc]
        exact hf s[n] (h s[n] (List.getElem_mem hn))
      have hsa : shapeAt s n = s.getD n ' ' := by
        simp only [shapeAt, hfn]
      show some (shapeAt s n) = s[n]?
      rw [hsa, hc]
      exact (List.getElem?_eq_getElem hn).symm
    · rw [List.getElem?_eq_none, List.getElem?_eq_none (Nat.le_of_not_lt hn)]
      rw [contextualShape, List.length_map, List.length_range]
      exact Nat.le_of_not_lt hn
  rw [applyRTLFormatting, hnorm, hshape, segGo_ltr s [] [] h]
  rfl

/-- C8 (witness): the shaper at a concrete non-script string. -/
theorem c8_nonscript_witness :
    applyRTLFormatting ("abc 123!".toList) = "abc 123!".toList :=
  c8_nonscript_unchanged ("abc 123!".toList) (by decide)

end UnityI2

namespace UnityI2

lemma lookupId_eq_none (t : PendingTable) (id : Nat)
    (h : id ∉ t.map Prod.fst) : lookupId t id = none := by
  have hf : t.find? (fun p => p.1 = id) = none := by
    rw [List.find?_eq_none]
    intro p hp
    simp only [decide_eq_true_eq]
    intro e
    exact h (e ▸ List.mem_map_of_mem Prod.fst hp)
  rw [lookupId, hf]
  rfl

lemma lookupId_eraseId_self (t : PendingTable) (id : Nat)
    (hnd : (t.map Prod.fst).Nodup) : lookupId (eraseId t id) id = none := by
  induction t with
  | nil => rfl
  | cons a l ih =>
    rw [List.map_cons, List.nodup_cons] at hnd
    by_cases he : a.1 = id
    · rw [show eraseId (a :: l) id = l from by
        simp [eraseId, List.eraseP_cons, he]]
      exact lookupId_eq_none l id (fun hm => hnd.1 (he.symm ▸ hm))
    · rw [show eraseId (a :: l) id = a :: eraseId l id from by
        simp [eraseId, List.eraseP_cons, he]]
      rw [lookupId, List.find?_cons_of_neg]
      · exact ih hnd.2
      · simp [he]

lemma lookupId_eraseId_ne (t : PendingTable) (id id2 : Nat)
    (hne : id2 ≠ id) : lookupId (eraseId t id) id2 = lookupId t id2 := by
  induction t with
  | nil => rfl
  | cons a l ih =>
    by_cases he : a.1 = id
    · rw [show eraseId (a :: l) id = l from by
        simp [eraseId, List.eraseP_cons, he]]
      symm
      rw [lookupId, List.find?_cons_of_neg]
      · rfl
      · simp only [decide_eq_true_eq, he]
        exact fun h => hne h.symm
    · rw [show eraseId (a :: l) id = a :: eraseId l id from by
        simp [eraseId, List.eraseP_cons, he]]
      by_cases h2 : a.1 = id2
      · rw [lookupId, List.find?_cons_of_pos, lookupId, List.find?_cons_of_pos]
        · simp [h2]
        · simp [h2]
      · rw [lookupId, List.find?_cons_of_neg, lookupId, List.find?_cons_of_neg]
        · exact ih
        · simp [h2]
        · simp [h2]

/-- C9: when the 30-second timeout of a pending request fires, the hook's
timeout callback rejects exactly that request with the distinguishable
timeout error and deletes only its own registration: no entry for the
timed-out id survives, every other pending id keeps its registration, a
later `REVERSE_RESULT` for any other id settles exactly as it would have
before the timeout, and the timeout error differs from a worker-reported
failure, from the unmount cancellation, and from any resolution. -/
theorem c9_timeout_isolated (t : PendingTable) (id : Nat)
    (hnd : (t.map Prod.fst).Nodup) (hpend : (lookupId t id).isSome) :
    (onTimeoutFire t id).2 = [(id, Settled.rejectedWith WorkerErr.timeout)] ∧
    lookupId (onTimeoutFire t id).1 id = none ∧
    (∀ id2, id2 ≠ id →
      lookupId (onTimeoutFire t id).1 id2 = lookupId t id2) ∧
    (∀ id2 v, id2 ≠ id →
      (onReverseResult (onTimeoutFire t id).1 id2 v).2
        = (onReverseResult t id2 v).2) ∧
    (∀ s, Settled.rejectedWith WorkerErr.timeout ≠ Settled.resolvedWith s) ∧
    (∀ m, WorkerErr.timeout ≠ WorkerErr.workerFailure m) ∧
    WorkerErr.timeout ≠ WorkerErr.cancelled := by
  have h1 : onTimeoutFire t id
      = (eraseId t id, [(id, Settled.rejectedWith WorkerErr.timeout)]) := by
    rw [onTimeoutFire, if_pos hpend]
  refine ⟨by rw [h1], ?_, ?_, ?_, ?_, ?_, ?_⟩
  · rw [h1]
    exact lookupId_eraseId_self t id hnd
  · intro id2 h2
    rw [h1]
    exact lookupId_eraseId_ne t id id2 h2
  · intro id2 v h2
    rw [h1]
    show (onReverseResult (eraseId t id) id2 v).2 = _
    rw [onReverseResult, onReverseResult, lookupId_eraseId_ne t id id2 h2]
    by_cases hc : (lookupId t id2).isSome
    · rw [if_pos hc, if_pos hc]
    · rw [if_neg hc, if_neg hc]
  · exact fun s h => Settled.noConfusion h
  · exact fun m h => WorkerErr.noConfusion h
  · exact fun h => WorkerErr.noConfusion h

/-- Witness for C9 at the concrete table `[(1,10),(2,20)]` with id 1:
the hypotheses hold and the timeout leaves request 2's registration and
future resolution intact while clearing request 1. -/
theorem c9_timeout_witness :
    (((([(1,10),(2,20)] : PendingTable)).map Prod.fst).Nodup
        ∧ (lookupId [(1,10),(2,20)] 1).isSome)
      ∧ (onTimeoutFire [(1,10),(2,20)] 1).2
          = [(1, Settled.rejectedWith WorkerErr.timeout)]
      ∧ lookupId (onTimeoutFire [(1,10),(2,20)] 1).1 1 = none
      ∧ lookupId (onTimeoutFire [(1,10),(2,20)] 1).1 2
          = lookupId [(1,10),(2,20)] 2 := by
  have h := c9_timeout_isolated [(1,10),(2,20)] 1 (by decide) (by decide)
  exact ⟨⟨by decide, by decide⟩, h.1, h.2.1, h.2.2.1 2 (by decide)⟩

end UnityI2
